import Mathlib

/-!
# Verification of the auto-env-generator scanning/merge engine

Shallow embedding of the core of src/lib.rs (EnvScanner): the Aho-Corasick
pre-filter over six literal patterns, the extraction regex
(?:std::env::var|env::var|dotenv::var)(?:_os)?\s*\(\s*"([^"\n\r]*)"\s*\),
the three-pass scan_file, find_rust_files, scan_directory,
read_existing_env and generate_env_file.

Text is modelled as List Char.  Rust's Unicode notion of whitespace
(used both by str::trim and by the regex class \s) is modelled by its
ASCII fragment, which is the fragment every claim exercises.
-/

namespace AutoEnv

/-- A span of text, as the list of its characters. -/
abbrev Text := List Char

/-- Whitespace, as tested by str::trim and the regex class \s
(ASCII fragment of Unicode White_Space). -/
def isWS (c : Char) : Bool :=
  c = ' ' || c = '\t' || c = '\n' || c = '\r' || c = '\x0b' || c = '\x0c'

/-- str::trim: remove leading and trailing whitespace. -/
def trimText (t : Text) : Text :=
  ((t.dropWhile isWS).reverse.dropWhile isWS).reverse

/-- Consume a maximal run of whitespace (the regex atom \s* ). -/
def dropWS (t : Text) : Text := t.dropWhile isWS

/-- The six literal patterns fed to the Aho-Corasick automaton
(lib.rs, EnvScanner::with_config). -/
def acPatterns : List Text :=
  [ "std::env::var(".toList, "env::var(".toList, "dotenv::var(".toList,
    "std::env::var_os(".toList, "env::var_os(".toList, "dotenv::var_os(".toList ]

/-- Does pattern p occur as a contiguous substring of t? -/
def containsSub (p t : Text) : Bool :=
  match t with
  | [] => p.isEmpty
  | _ :: rest => p.isPrefixOf t || containsSub p rest

/-- AhoCorasick::is_match over the six patterns: true iff some pattern is a
substring of the span. -/
def acIsMatch (t : Text) : Bool := acPatterns.any fun p => containsSub p t

/-- The three call-name alternatives of the extraction regex. -/
def stdName : Text := "std::env::var".toList

/-- Second alternative of the extraction regex. -/
def envName : Text := "env::var".toList

/-- Third alternative of the extraction regex. -/
def dotenvName : Text := "dotenv::var".toList

/-- The optional suffix token (?:_os)? of the extraction regex. -/
def osSuffix : Text := "_os".toList

/-- The regex fragment ([^"\n\r]*)" : consume the capture up to the closing
double-quote; fail on newline, carriage return, or end of span. -/
def readCapture : Text → Option (Text × Text)
  | [] => none
  | c :: rest =>
    if c = '"' then some ([], rest)
    else if c = '\n' ∨ c = '\r' then none
    else
      match readCapture rest with
      | some (n, r) => some (c :: n, r)
      | none => none

/-- The regex fragment \s*"([^"\n\r]*)"\s*\) that follows the opening
parenthesis. -/
def afterParen (t : Text) : Option (Text × Text) :=
  match dropWS t with
  | c :: t3 =>
    if c = '"' then
      match readCapture t3 with
      | some (n, r) =>
        match dropWS r with
        | c2 :: t4 => if c2 = ')' then some (n, t4) else none
        | [] => none
      | none => none
    else none
  | [] => none

/-- The regex fragment \s*\(\s*"([^"\n\r]*)"\s*\) after the call name. -/
def matchArgs (t : Text) : Option (Text × Text) :=
  match dropWS t with
  | c :: t2 => if c = '(' then afterParen t2 else none
  | [] => none

/-- The optional greedy (?:_os)? followed by matchArgs, with the
backtracking a leftmost-first regex engine performs. -/
def matchAfterName (t : Text) : Option (Text × Text) :=
  if osSuffix.isPrefixOf t then
    match matchArgs (t.drop 3) with
    | some r => some r
    | none => matchArgs t
  else matchArgs t

/-- Try one call-name alternative at the start of the span. -/
def tryName (nm t : Text) : Option (Text × Text) :=
  if nm.isPrefixOf t then matchAfterName (t.drop nm.length) else none

/-- Match the whole extraction regex anchored at the start of the span,
alternatives in the order they appear in the regex; returns the capture
and the text after the match. -/
def matchAt (t : Text) : Option (Text × Text) :=
  match tryName stdName t with
  | some r => some r
  | none =>
    match tryName envName t with
    | some r => some r
    | none => tryName dotenvName t

/-- Successive non-overlapping leftmost matches (Regex::captures_iter),
fuelled by the length of the span. -/
def findAllFuel : Nat → Text → List Text
  | 0, _ => []
  | _ + 1, [] => []
  | fuel + 1, c :: rest =>
    match matchAt (c :: rest) with
    | some (n, after) => n :: findAllFuel fuel after
    | none => findAllFuel fuel rest

/-- All captures the extraction regex produces on a span, in order
(Regex::captures_iter of lib.rs). -/
def findAll (t : Text) : List Text := findAllFuel t.length t

example : findAll ("let u = std::env::var(\"DATABASE_URL\").unwrap();".toList)
    = ["DATABASE_URL".toList] := by decide

example : findAll ("env::var_os( \"API KEY\" ).ok()".toList)
    = ["API KEY".toList] := by decide

example : findAll ("env::var(name)".toList) = [] := by decide

example : findAll ("env::var('X')".toList) = [] := by decide

example : findAll ("env::var (\"FOO\")".toList) = ["FOO".toList] := by decide

example : acIsMatch ("env::var (\"FOO\")".toList) = false := by decide

example : acIsMatch ("x dotenv::var_os(q".toList) = true := by decide

/-- The inline comment marker // . -/
def slashSlash : Text := "//".toList

/-- trimmed_line.starts_with("//"). -/
def startsSS (t : Text) : Bool := slashSlash.isPrefixOf t

/-- line.find("//") followed by slicing line[..pos]: the part of the line
before its first // marker, or none when the line has no marker. -/
def splitComment : Text → Option Text
  | [] => none
  | c :: rest =>
    if c = '/' ∧ rest.head? = some '/' then some []
    else
      match splitComment rest with
      | some before => some (c :: before)
      | none => none

/-- One insertion into the variables set, guarded by the configured ignore
list exactly as in scan_file: skipped iff the list contains the name. -/
def insertVar (ig : Option (List Text)) (s : Finset Text) (n : Text) : Finset Text :=
  match ig with
  | some l => if n ∈ l then s else insert n s
  | none => insert n s

/-- The pattern-gated extraction scan_file performs on one text span:
if the Aho-Corasick pre-filter matches, every regex capture is inserted
(subject to the ignore list); otherwise the span contributes nothing. -/
def processSpan (ig : Option (List Text)) (s : Finset Text) (t : Text) : Finset Text :=
  if acIsMatch t then (findAll t).foldl (insertVar ig) s else s

/-- The per-line step of scan_file's first loop: skip empty and full-comment
lines; examine only the part before an inline // marker when one exists,
the whole line otherwise. -/
def scanLine (ig : Option (List Text)) (s : Finset Text) (line : Text) : Finset Text :=
  let tl := trimText line
  if startsSS tl || tl.isEmpty then s
  else
    match splitComment line with
    | some before => processSpan ig s before
    | none => processSpan ig s line

/-- Join pieces with a single space (the join(" ") of scan_file). -/
def joinSpace : List Text → Text
  | [] => []
  | [l] => l
  | l :: ls => l ++ ' ' :: joinSpace ls

/-- scan_file's whitespace-normalized whole-file text: trim every line,
drop empty and full-comment lines, join the survivors with single spaces. -/
def normalizedContent (lines : List Text) : Text :=
  joinSpace ((lines.map trimText).filter fun l => !startsSS l && !l.isEmpty)

/-- EnvScanner::scan_file on the list of physical lines of a file:
the per-line pass folded over all lines, then the normalization pass,
all insertions going into one result set. -/
def scanFileLines (ig : Option (List Text)) (lines : List Text) : Finset Text :=
  processSpan ig (lines.foldl (scanLine ig) ∅) (normalizedContent lines)

/-- str::lines(): split at \n or \r\n, the final line ending optional. -/
def linesOf : Text → List Text
  | [] => []
  | '\r' :: '\n' :: rest => [] :: linesOf rest
  | '\n' :: rest => [] :: linesOf rest
  | c :: rest =>
    match linesOf rest with
    | [] => [[c]]
    | l :: ls => (c :: l) :: ls

/-- EnvScanner::scan_file on raw file content. -/
def scanFileContent (ig : Option (List Text)) (content : Text) : Finset Text :=
  scanFileLines ig (linesOf content)

example : linesOf ("a\r\nb\nc".toList) = ["a".toList, "b".toList, "c".toList] := by decide

example : linesOf ("a\n\n".toList) = ["a".toList, []] := by decide

example : scanFileContent (some [])
    "let u = std::env::var(\"DB\").unwrap();\n// dotenv::var(\"UNUSED\")\nlet k = env::var(\"KEY\").ok();".toList
    = {"KEY".toList, "DB".toList} := by decide

example : scanFileContent (some [])
    "x(); // env::var(\"SECRET\")".toList = {"SECRET".toList} := by decide

example : scanFileContent (some [])
    "let v = env::var(\n\"MULTI\"\n).ok();".toList = {"MULTI".toList} := by decide

/-- line.find('=') with the two slices around it: split a line at its first
= sign, or none when the line has no = sign. -/
def splitEq : Text → Option (Text × Text)
  | [] => none
  | c :: rest =>
    if c = '=' then some ([], rest)
    else
      match splitEq rest with
      | some (k, v) => some (c :: k, v)
      | none => none

/-- HashMap::insert on an association list: replace the binding of an
existing key, append a fresh one. -/
def upsert (k v : Text) : List (Text × Text) → List (Text × Text)
  | [] => [(k, v)]
  | (k', v') :: rest => if k' = k then (k, v) :: rest else (k', v') :: upsert k v rest

/-- HashMap::get on an association list. -/
def lookupKey (k : Text) : List (Text × Text) → Option Text
  | [] => none
  | (k', v) :: rest => if k' = k then some v else lookupKey k rest

/-- HashMap::contains_key on an association list. -/
def containsKey (k : Text) (m : List (Text × Text)) : Bool := (lookupKey k m).isSome

/-- One line of read_existing_env: trim; skip empty lines and lines starting
with the # marker; otherwise split at the first = and store the trimmed key
and trimmed value. -/
def parseLine (m : List (Text × Text)) (line : Text) : List (Text × Text) :=
  let l := trimText line
  if l.isEmpty || l.head? = some '#' then m
  else
    match splitEq l with
    | some (k, v) => upsert (trimText k) (trimText v) m
    | none => m

/-- EnvScanner::read_existing_env on raw file content: the key-to-value
mapping the merge step starts from. -/
def parseEnv (content : Text) : List (Text × Text) := (linesOf content).foldl parseLine []

/-- HashMap::entry(var).or_insert_with(String::new): add a discovered name
with the empty value unless the key is already bound. -/
def orInsert (m : List (Text × Text)) (n : Text) : List (Text × Text) :=
  if containsKey n m then m else m ++ [(n, [])]

/-- The merge loop of generate_env_file: every discovered variable is added
with an empty value when absent; present values are untouched. -/
def mergeVars (vars : List Text) (m : List (Text × Text)) : List (Text × Text) :=
  vars.foldl orInsert m

/-- Byte order on text (String::cmp of Rust: UTF-8 byte order, which is
code-point lexicographic order). -/
def leText : Text → Text → Bool
  | [], _ => true
  | _ :: _, [] => false
  | a :: as, b :: bs =>
    if a.toNat < b.toNat then true
    else if b.toNat < a.toNat then false
    else leText as bs

/-- sort_by(|a, b| a.0.cmp(b.0)): sort the entries by key ascending. -/
def sortPairs (l : List (Text × Text)) : List (Text × Text) :=
  List.insertionSort (fun p q => leText p.1 q.1 = true) l

/-- One output line of generate_env_file: KEY= when the value is empty,
KEY=VALUE otherwise. -/
def renderEntry (p : Text × Text) : Text :=
  if p.2.isEmpty then p.1 ++ ['='] else p.1 ++ '=' :: p.2

/-- The first header comment line written by generate_env_file. -/
def header1 : Text := "# Auto-generated environment variables".toList

/-- The second header comment line written by generate_env_file. -/
def header2 : Text := "# Add your values below".toList

/-- The lines generate_env_file writes, in order: two comment headers, one
blank line, then one line per entry sorted by key. -/
def generateLines (vars : List Text) (m : List (Text × Text)) : List Text :=
  header1 :: header2 :: [] :: (sortPairs (mergeVars vars m)).map renderEntry

/-- writeln! terminates every line with a newline; the file content is the
concatenation. -/
def joinNl (ls : List Text) : Text := (ls.map fun l => l ++ ['\n']).flatten

/-- EnvScanner::generate_env_file with merge_existing true: the content
written to the output path, given the discovered names and the prior
content of that path (empty prior content for a missing file). -/
def genFromContent (vars : List Text) (prior : Text) : Text :=
  joinNl (generateLines vars (parseEnv prior))

example : parseEnv ("# c\n\nA=1\n B = x y \nA=2\nnoeq\n".toList)
    = [("A".toList, "2".toList), ("B".toList, "x y".toList)] := by decide

example : genFromContent ["NEW".toList, "A".toList] "A=postgres://x\n".toList
    = joinNl [header1, header2, [], "A=postgres://x".toList, "NEW=".toList] := by decide

example : genFromContent ["A ".toList] [] = joinNl [header1, header2, [], "A =".toList] := by
  decide

example : genFromContent ["A ".toList] (genFromContent ["A ".toList] [])
    = joinNl [header1, header2, [], "A=".toList, "A =".toList] := by decide

example : genFromContent [[]] [] = joinNl [header1, header2, [], ['=']] := by decide

/-- A directory tree entry: a named file or a named directory with its
entries (the filesystem shape find_rust_files walks). -/
inductive FSTree where
  | file (name : Text)
  | dir (name : Text) (entries : List FSTree)

/-- Path::extension: the portion of a file name after its last dot, when a
dot occurs past the first character; a bare leading dot yields none. -/
def extOf (name : Text) : Option Text :=
  match name with
  | [] => none
  | _ :: rest =>
    if rest.contains '.' then some (rest.reverse.takeWhile (fun c => c ≠ '.')).reverse
    else none

/-- Is a directory skipped by find_rust_files: hidden (name starts with a
dot) or the build-artifact directory named target. -/
def skipDir (name : Text) : Bool := name.head? = some '.' || name = "target".toList

/-- The walk_dir helper of find_rust_files over a list of entries, with the
path components that lead to them: recurse into non-skipped directories,
collect files with the rs extension. -/
def walkList (pre : List Text) : List FSTree → List (List Text)
  | [] => []
  | FSTree.file name :: es =>
    (if extOf name = some ("rs".toList) then [pre ++ [name]] else []) ++ walkList pre es
  | FSTree.dir name sub :: es =>
    (if skipDir name then [] else walkList (pre ++ [name]) sub) ++ walkList pre es

/-- EnvScanner::find_rust_files from a root directory's entries; paths are
component lists relative to the root. -/
def findRustFiles (root : List FSTree) : List (List Text) := walkList [] root

example : findRustFiles
    [ FSTree.dir ("src".toList) [FSTree.file ("main.rs".toList), FSTree.file ("lib.so".toList)],
      FSTree.dir ("target".toList) [FSTree.file ("gen.rs".toList)],
      FSTree.dir (".git".toList) [FSTree.file ("a.rs".toList)],
      FSTree.file ("build.rs".toList), FSTree.file (".rs".toList) ]
    = [["src".toList, "main.rs".toList], ["build.rs".toList]] := by
  simp [findRustFiles, walkList, extOf, skipDir]

/-- scan_file at the orchestrator boundary: a file that cannot be read
(modelled as a missing content) fails, otherwise the scan succeeds. -/
def scanFileRes (ig : Option (List Text)) (f : Option Text) : Except Unit (Finset Text) :=
  match f with
  | none => Except.error ()
  | some c => Except.ok (scanFileContent ig c)

/-- One step of scan_directory's try_for_each: propagate a file failure,
otherwise extend the accumulated set (an empty per-file set is skipped,
which leaves the union unchanged). -/
def scanStep (ig : Option (List Text)) (acc : Finset Text) (f : Option Text) :
    Except Unit (Finset Text) :=
  match scanFileRes ig f with
  | Except.error e => Except.error e
  | Except.ok vars => Except.ok (if vars = ∅ then acc else acc ∪ vars)

/-- The fail-fast accumulation of scan_directory over the file list. -/
def scanFold (ig : Option (List Text)) (acc : Finset Text) :
    List (Option Text) → Except Unit (Finset Text)
  | [] => Except.ok acc
  | f :: fs =>
    match scanStep ig acc f with
    | Except.error e => Except.error e
    | Except.ok acc2 => scanFold ig acc2 fs

/-- EnvScanner::scan_directory over the per-file contents of the discovered
files: empty list short-circuits, otherwise every file is scanned and the
sets are combined; any failure aborts the whole scan. -/
def scanDirectory (ig : Option (List Text)) (files : List (Option Text)) :
    Except Unit (Finset Text) :=
  if files.isEmpty then Except.ok ∅ else scanFold ig ∅ files

/-- The plain set union of the per-file result sets of the readable files,
used to state what scan_directory returns on success. -/
def unionScan (ig : Option (List Text)) (files : List (Option Text)) : Finset Text :=
  files.foldl
    (fun s f =>
      match f with
      | some c => s ∪ scanFileContent ig c
      | none => s) ∅

instance : DecidableEq (Except Unit (Finset Text)) := fun a b =>
  match a, b with
  | Except.error (), Except.error () => isTrue rfl
  | Except.ok s, Except.ok s' =>
    if h : s = s' then isTrue (congrArg Except.ok h)
    else isFalse fun hc => h (by injection hc)
  | Except.error _, Except.ok _ => isFalse fun hc => Except.noConfusion hc
  | Except.ok _, Except.error _ => isFalse fun hc => Except.noConfusion hc

example : scanDirectory (some []) [some ("env::var(\"A\")".toList), none]
    = Except.error () := by decide

example : scanDirectory (some [])
    [some ("env::var(\"A\")".toList), some ("x".toList), some ("dotenv::var(\"B\")".toList)]
    = Except.ok {"A".toList, "B".toList} := by decide

/-! ## Auxiliary definitions used by the verification -/

/-- The ignore check scan_file applies before each insertion. -/
def Ignored (ig : Option (List Text)) (n : Text) : Prop :=
  ∃ l, ig = some l ∧ n ∈ l

/-- The text span the per-line pass examines on one line: none for skipped
lines, the part before the first // marker for lines with an inline marker,
the whole line otherwise. -/
def lineSpan (line : Text) : Option Text :=
  let tl := trimText line
  if startsSS tl || tl.isEmpty then none
  else
    match splitComment line with
    | some before => some before
    | none => some line

/-- Variant of the argument fragment that requires the opening parenthesis
immediately (no whitespace run before it); used to characterise the regex
matches the literal patterns can see. -/
def tightArgs (t : Text) : Option (Text × Text) :=
  match t with
  | c :: t2 => if c = '(' then afterParen t2 else none
  | [] => none

/-- Variant of matchAfterName whose parenthesis follows the call name (or
its _os suffix) with no intervening whitespace. -/
def tightAfterName (t : Text) : Option (Text × Text) :=
  if osSuffix.isPrefixOf t then
    match tightArgs (t.drop 3) with
    | some r => some r
    | none => tightArgs t
  else tightArgs t

/-- Variant of tryName with the tight parenthesis. -/
def tightTryName (nm t : Text) : Option (Text × Text) :=
  if nm.isPrefixOf t then tightAfterName (t.drop nm.length) else none

/-- A regex match anchored at the start of the span in which no whitespace
separates the call name from the opening parenthesis — exactly the matches
that exhibit one of the six Aho-Corasick literals. -/
def tightMatchAt (t : Text) : Option (Text × Text) :=
  match tightTryName stdName t with
  | some r => some r
  | none =>
    match tightTryName envName t with
    | some r => some r
    | none => tightTryName dotenvName t

/-- No double-quote, newline or carriage return: the character class of the
capture group. -/
def CleanCapture (n : Text) : Prop := ∀ c ∈ n, c ≠ '"' ∧ c ≠ '\n' ∧ c ≠ '\r'

/-- A run of whitespace (an instance of the regex atom \s* ). -/
def IsWSRun (w : Text) : Prop := ∀ c ∈ w, isWS c = true

/-- Modelled from the spec's description of a match: the span contains, in
order, one of the three call-name alternatives, an optional _os suffix,
whitespace, an opening parenthesis, whitespace, a double-quote, a capture
without double-quote/newline/carriage-return, a double-quote, whitespace
and a closing parenthesis.  This is the spec-side shape the claim compares
the extractor against. -/
def SpanShape (t n : Text) : Prop :=
  ∃ pre cname os w1 w2 w3 post,
    (cname = stdName ∨ cname = envName ∨ cname = dotenvName)
    ∧ (os = [] ∨ os = osSuffix)
    ∧ IsWSRun w1 ∧ IsWSRun w2 ∧ IsWSRun w3 ∧ CleanCapture n
    ∧ t = pre ++ cname ++ os ++ w1 ++ '(' :: w2 ++ '"' :: n ++ '"' :: w3 ++ ')' :: post

/-- A discovered name that survives the write/parse round trip verbatim:
no surrounding whitespace, no newline, no equals sign, not starting with
the comment marker. -/
def WFName (n : Text) : Prop :=
  trimText n = n ∧ '\n' ∉ n ∧ '=' ∉ n ∧ n.head? ≠ some '#'

/-- A key/value pair of the mapping that reparses verbatim. -/
def WFPair (p : Text × Text) : Prop :=
  WFName p.1 ∧ trimText p.2 = p.2 ∧ '\n' ∉ p.2

/-! ## Supporting lemmas: the orchestrator (scan_directory) -/

theorem scanFold_error (ig : Option (List Text)) :
    ∀ (fs : List (Option Text)) (acc : Finset Text), none ∈ fs →
      scanFold ig acc fs = Except.error () := by
  intro fs
  induction fs with
  | nil => intro acc h; cases h
  | cons f fs ih =>
    intro acc h
    cases f with
    | none => simp [scanFold, scanStep, scanFileRes]
    | some c =>
      have hmem : none ∈ fs := by
        rcases List.mem_cons.1 h with h1 | h1
        · cases h1
        · exact h1
      simp [scanFold, scanStep, scanFileRes, ih _ hmem]

theorem scanFold_ok (ig : Option (List Text)) :
    ∀ (fs : List (Option Text)) (acc : Finset Text), none ∉ fs →
      scanFold ig acc fs = Except.ok
        (fs.foldl
          (fun s f =>
            match f with
            | some c => s ∪ scanFileContent ig c
            | none => s) acc) := by
  intro fs
  induction fs with
  | nil => intro acc _; rfl
  | cons f fs ih =>
    intro acc h
    cases f with
    | none => exact absurd (List.mem_cons_self _ _) h
    | some c =>
      have hmem : none ∉ fs := fun hx => h (List.mem_cons_of_mem _ hx)
      have hstep : scanStep ig acc (some c)
          = Except.ok (acc ∪ scanFileContent ig c) := by
        unfold scanStep scanFileRes
        by_cases hv : scanFileContent ig c = ∅
        · simp [hv]
        · simp [hv]
      simp only [scanFold, hstep, ih _ hmem, List.foldl_cons]

/-- C5: scan_directory is fail-fast and, on success, returns the set union.
If the scan of any single file fails (its content is unreadable) the whole
directory scan returns an error, and when every per-file scan succeeds the
result is exactly the union of the per-file result sets. -/
theorem c5_scan_directory_fail_fast_union (ig : Option (List Text))
    (files : List (Option Text)) :
    ((∃ f ∈ files, scanFileRes ig f = Except.error ()) →
      scanDirectory ig files = Except.error ())
    ∧ ((∀ f ∈ files, scanFileRes ig f ≠ Except.error ()) →
      scanDirectory ig files = Except.ok (unionScan ig files)) := by
  constructor
  · rintro ⟨f, hf, herr⟩
    have hnone : f = none := by
      cases f with
      | none => rfl
      | some c => simp [scanFileRes] at herr
    subst hnone
    have hne : files.isEmpty = false := by
      cases files with
      | nil => cases hf
      | cons a l => rfl
    unfold scanDirectory
    rw [hne]
    simpa using scanFold_error ig files ∅ hf
  · intro hok
    have hnn : none ∉ files := by
      intro hmem
      exact hok none hmem (by simp [scanFileRes])
    unfold scanDirectory
    by_cases hne : files.isEmpty
    · rw [if_pos hne]
      have : files = [] := List.isEmpty_iff.1 hne
      subst this
      rfl
    · rw [if_neg hne]
      exact scanFold_ok ig files ∅ hnn

/-- Witness for C5 at concrete inputs: a file list with an unreadable file
errors out, and an all-readable file list returns the union. -/
theorem c5_witness :
    scanDirectory (some []) [some ("env::var(\"A\")".toList), none] = Except.error ()
    ∧ scanDirectory (some []) [some ("env::var(\"A\")".toList), some ("dotenv::var(\"B\")".toList)]
        = Except.ok (unionScan (some [])
            [some ("env::var(\"A\")".toList), some ("dotenv::var(\"B\")".toList)]) :=
  ⟨(c5_scan_directory_fail_fast_union (some []) _).1 (by decide),
   (c5_scan_directory_fail_fast_union (some []) _).2 (by decide)⟩

/-! ## Supporting lemmas: membership in the scan_file result set -/

theorem mem_insertVar (ig : Option (List Text)) (s : Finset Text) (n m : Text) :
    m ∈ insertVar ig s n ↔ m ∈ s ∨ (m = n ∧ ¬ Ignored ig n) := by
  cases ig with
  | none =>
    simp only [insertVar, Finset.mem_insert]
    constructor
    · rintro (h | h)
      · exact Or.inr ⟨h, by rintro ⟨l, hl, _⟩; cases hl⟩
      · exact Or.inl h
    · rintro (h | ⟨h, _⟩)
      · exact Or.inr h
      · exact Or.inl h
  | some l =>
    simp only [insertVar]
    by_cases hn : n ∈ l
    · rw [if_pos hn]
      constructor
      · intro h; exact Or.inl h
      · rintro (h | ⟨rfl, hni⟩)
        · exact h
        · exact absurd ⟨l, rfl, hn⟩ hni
    · rw [if_neg hn]
      simp only [Finset.mem_insert]
      constructor
      · rintro (h | h)
        · exact Or.inr ⟨h, by rintro ⟨l', hl', hml'⟩; cases hl'; exact hn hml'⟩
        · exact Or.inl h
      · rintro (h | ⟨rfl, _⟩)
        · exact Or.inr h
        · exact Or.inl rfl

theorem mem_foldl_insertVar (ig : Option (List Text)) :
    ∀ (ns : List Text) (s : Finset Text) (m : Text),
      m ∈ ns.foldl (insertVar ig) s ↔ m ∈ s ∨ (m ∈ ns ∧ ¬ Ignored ig m) := by
  intro ns
  induction ns with
  | nil => intro s m; simp
  | cons n ns ih =>
    intro s m
    rw [List.foldl_cons, ih]
    rw [mem_insertVar]
    constructor
    · rintro ((h | ⟨rfl, hni⟩) | ⟨hm, hni⟩)
      · exact Or.inl h
      · exact Or.inr ⟨List.mem_cons_self _ _, hni⟩
      · exact Or.inr ⟨List.mem_cons_of_mem _ hm, hni⟩
    · rintro (h | ⟨hm, hni⟩)
      · exact Or.inl (Or.inl h)
      · rcases List.mem_cons.1 hm with rfl | hm'
        · exact Or.inl (Or.inr ⟨rfl, hni⟩)
        · exact Or.inr ⟨hm', hni⟩

theorem mem_processSpan (ig : Option (List Text)) (s : Finset Text) (t : Text) (m : Text) :
    m ∈ processSpan ig s t
      ↔ m ∈ s ∨ (acIsMatch t = true ∧ m ∈ findAll t ∧ ¬ Ignored ig m) := by
  unfold processSpan
  by_cases h : acIsMatch t
  · rw [if_pos h, mem_foldl_insertVar]
    tauto
  · rw [if_neg h]
    constructor
    · exact fun hm => Or.inl hm
    · rintro (hm | ⟨hmatch, _⟩)
      · exact hm
      · exact absurd hmatch h

theorem scanLine_eq_lineSpan (ig : Option (List Text)) (s : Finset Text) (line : Text) :
    scanLine ig s line
      = match lineSpan line with
        | none => s
        | some t => processSpan ig s t := by
  unfold scanLine lineSpan
  by_cases h : startsSS (trimText line) || (trimText line).isEmpty
  · simp [h]
  · simp only [h, if_neg]
    cases splitComment line <;> simp

theorem mem_foldl_scanLine (ig : Option (List Text)) :
    ∀ (lines : List Text) (s : Finset Text) (m : Text),
      m ∈ lines.foldl (scanLine ig) s
        ↔ m ∈ s ∨ ∃ l ∈ lines, ∃ t, lineSpan l = some t
              ∧ acIsMatch t = true ∧ m ∈ findAll t ∧ ¬ Ignored ig m := by
  intro lines
  induction lines with
  | nil => intro s m; simp
  | cons l ls ih =>
    intro s m
    rw [List.foldl_cons, ih, scanLine_eq_lineSpan]
    cases hl : lineSpan l with
    | none =>
      simp only [List.mem_cons]
      constructor
      · rintro (h | ⟨l', hl', rest⟩)
        · exact Or.inl h
        · exact Or.inr ⟨l', Or.inr hl', rest⟩
      · rintro (h | ⟨l', hl', t, ht, rest⟩)
        · exact Or.inl h
        · rcases hl' with rfl | hl'
          · rw [hl] at ht; cases ht
          · exact Or.inr ⟨l', hl', t, ht, rest⟩
    | some t0 =>
      rw [mem_processSpan]
      simp only [List.mem_cons]
      constructor
      · rintro ((h | ⟨hmatch, hfind, hni⟩) | ⟨l', hl', rest⟩)
        · exact Or.inl h
        · exact Or.inr ⟨l, Or.inl rfl, t0, hl, hmatch, hfind, hni⟩
        · exact Or.inr ⟨l', Or.inr hl', rest⟩
      · rintro (h | ⟨l', hl', t, ht, hmatch, hfind, hni⟩)
        · exact Or.inl (Or.inl h)
        · rcases hl' with rfl | hl'
          · rw [hl] at ht
            cases ht
            exact Or.inl (Or.inr ⟨hmatch, hfind, hni⟩)
          · exact Or.inr ⟨l', hl', t, ht, hmatch, hfind, hni⟩

/-- Full characterization of membership in the scan_file result set. -/
theorem mem_scanFileLines (ig : Option (List Text)) (lines : List Text) (m : Text) :
    m ∈ scanFileLines ig lines
      ↔ (¬ Ignored ig m)
        ∧ ((∃ l ∈ lines, ∃ t, lineSpan l = some t ∧ acIsMatch t = true ∧ m ∈ findAll t)
            ∨ (acIsMatch (normalizedContent lines) = true
                ∧ m ∈ findAll (normalizedContent lines))) := by
  unfold scanFileLines
  rw [mem_processSpan, mem_foldl_scanLine]
  constructor
  · rintro ((h | ⟨l, hl, t, ht, hmatch, hfind, hni⟩) | ⟨hmatch, hfind, hni⟩)
    · exact absurd h (Finset.not_mem_empty m)
    · exact ⟨hni, Or.inl ⟨l, hl, t, ht, hmatch, hfind⟩⟩
    · exact ⟨hni, Or.inr ⟨hmatch, hfind⟩⟩
  · rintro ⟨hni, ⟨l, hl, t, ht, hmatch, hfind⟩ | ⟨hmatch, hfind⟩⟩
    · exact Or.inl (Or.inr ⟨l, hl, t, ht, hmatch, hfind, hni⟩)
    · exact Or.inr ⟨hmatch, hfind, hni⟩

/-- C9: the ignore filter drops a name iff it is exactly equal to some entry
of the configured ignore list; relative to the unfiltered scan, membership
is precisely unfiltered membership plus non-membership in the list, so a
name merely containing an ignored entry as a proper substring is kept. -/
theorem c9_ignore_exact (ig : List Text) (content : Text) (n : Text) :
    n ∈ scanFileContent (some ig) content
      ↔ n ∈ scanFileContent (some []) content ∧ n ∉ ig := by
  unfold scanFileContent
  rw [mem_scanFileLines, mem_scanFileLines]
  have h1 : Ignored (some ig) n ↔ n ∈ ig := by
    constructor
    · rintro ⟨l, hl, hm⟩; cases hl; exact hm
    · intro hm; exact ⟨ig, rfl, hm⟩
  have h2 : ¬ Ignored (some []) n := by
    rintro ⟨l, hl, hm⟩; cases hl; cases hm
  constructor
  · rintro ⟨hni, hd⟩
    exact ⟨⟨h2, hd⟩, fun hmem => hni (h1.2 hmem)⟩
  · rintro ⟨⟨_, hd⟩, hnig⟩
    exact ⟨fun hig => hnig (h1.1 hig), hd⟩

/-! ## C2: inline-comment exclusion -/

/-- C2 counterexample: in the one-line file x(); // env::var("SECRET") the
accessor call lies strictly after the // marker on its own physical line
(the part before the marker contains no match), yet scan_file's overall
result still contains SECRET, because the whole-file normalization pass
keeps the trailing inline comment of a code line. -/
theorem c2_counterexample :
    splitComment ("x(); // env::var(\"SECRET\")".toList) = some ("x(); ".toList)
    ∧ findAll ("x(); ".toList) = []
    ∧ scanFileContent (some []) "x(); // env::var(\"SECRET\")".toList
        = {"SECRET".toList} := by
  refine ⟨by decide, by decide, by decide⟩

/-- C2 amended: a call after a // marker is excluded from the line-wise
pass, which examines only the text before the first marker, and a line
whose trimmed text begins with // contributes nothing at all to scan_file;
but the exclusion does not extend to the whole-file normalization pass, so
it does not hold for scan_file's overall result set (see the
counterexample). -/
theorem c2_linewise_comment_exclusion (ig : Option (List Text))
    (pre post : List Text) (l : Text) (s : Finset Text) (before : Text) :
    (startsSS (trimText l) = true →
      scanFileLines ig (pre ++ l :: post) = scanFileLines ig (pre ++ post))
    ∧ (splitComment l = some before → startsSS (trimText l) = false →
        (trimText l).isEmpty = false → scanLine ig s l = processSpan ig s before) := by
  constructor
  · intro h
    have hspan : lineSpan l = none := by
      unfold lineSpan
      simp [h]
    have hfold : ∀ (acc : Finset Text),
        (pre ++ l :: post).foldl (scanLine ig) acc
          = (pre ++ post).foldl (scanLine ig) acc := by
      intro acc
      rw [List.foldl_append, List.foldl_append, List.foldl_cons,
        scanLine_eq_lineSpan, hspan]
    have hnorm : normalizedContent (pre ++ l :: post) = normalizedContent (pre ++ post) := by
      unfold normalizedContent
      rw [List.map_append, List.map_append, List.map_cons,
        List.filter_append, List.filter_append, List.filter_cons]
      simp [h]
    unfold scanFileLines
    rw [hfold, hnorm]
  · intro hsplit h1 h2
    unfold scanLine
    simp only [h1, h2, Bool.or_self, Bool.false_eq_true, if_false, hsplit]

/-- Witness for C2's amended statement at concrete inputs: a full-line
comment containing a call contributes nothing, and for a line with an
inline marker only the part before the marker is scanned. -/
theorem c2_witness :
    scanFileLines (some []) ["  // dotenv::var(\"GONE\")".toList, "fn f();".toList]
      = scanFileLines (some []) ["fn f();".toList]
    ∧ scanLine (some []) ∅ "let a = env::var(\"A\"); // tail".toList
        = processSpan (some []) ∅ "let a = env::var(\"A\"); ".toList :=
  ⟨(c2_linewise_comment_exclusion (some []) [] ["fn f();".toList]
      "  // dotenv::var(\"GONE\")".toList ∅ []).1 (by decide),
   (c2_linewise_comment_exclusion (some []) [] [] "let a = env::var(\"A\"); // tail".toList
      ∅ "let a = env::var(\"A\"); ".toList).2 (by decide) (by decide) (by decide)⟩

/-! ## C1: the Aho-Corasick pre-filter versus the extraction regex -/

theorem dropWS_cons_of_not_ws {c : Char} (t : Text) (h : isWS c = false) :
    dropWS (c :: t) = c :: t := by
  unfold dropWS
  rw [List.dropWhile_cons, h]
  rfl

theorem tightArgs_cons_ne (c : Char) (t2 : Text) (hc : c ≠ '(') :
    tightArgs (c :: t2) = none := by
  show (if c = '(' then afterParen t2 else none) = none
  rw [if_neg hc]

theorem tightArgs_imp_matchArgs (t : Text) (r : Text × Text)
    (h : tightArgs t = some r) : matchArgs t = some r := by
  cases t with
  | nil => cases h
  | cons c t2 =>
    by_cases hc : c = '('
    · subst hc
      have h' : afterParen t2 = some r := h
      unfold matchArgs
      rw [dropWS_cons_of_not_ws t2 (by decide)]
      exact h'
    · rw [tightArgs_cons_ne c t2 hc] at h
      cases h

theorem isPrefixOf_head {nm t : Text} (h : nm.isPrefixOf t = true) (hne : nm ≠ []) :
    t.head? = nm.head? := by
  rcases List.isPrefixOf_iff_prefix.1 h with ⟨u, rfl⟩
  cases nm with
  | nil => exact absurd rfl hne
  | cons a l => rfl

theorem tightAfterName_imp_matchAfterName (t : Text) (r : Text × Text)
    (h : tightAfterName t = some r) : matchAfterName t = some r := by
  unfold tightAfterName at h
  unfold matchAfterName
  by_cases hos : osSuffix.isPrefixOf t
  · rw [if_pos hos] at h ⊢
    cases h3 : tightArgs (t.drop 3) with
    | some r3 =>
      rw [h3] at h
      have h' : some r3 = some r := h
      injection h' with h''
      subst h''
      rw [tightArgs_imp_matchArgs _ _ h3]
    | none =>
      rw [h3] at h
      have h' : tightArgs t = some r := h
      have hhd : t.head? = some '_' := by
        have := isPrefixOf_head hos (by decide)
        rw [this]
        rfl
      cases t with
      | nil => cases hhd
      | cons c t2 =>
        have hc : c = '_' := by injection hhd
        rw [tightArgs_cons_ne c t2 (by rw [hc]; decide)] at h'
        cases h'
  · rw [if_neg hos] at h ⊢
    exact tightArgs_imp_matchArgs _ _ h

theorem tightTryName_imp_tryName (nm t : Text) (r : Text × Text)
    (h : tightTryName nm t = some r) : tryName nm t = some r := by
  unfold tightTryName at h
  unfold tryName
  by_cases hp : nm.isPrefixOf t
  · rw [if_pos hp] at h ⊢
    exact tightAfterName_imp_matchAfterName _ _ h
  · rw [if_neg hp] at h
    cases h

theorem tightTryName_none_of_not_isPrefixOf (nm t : Text) (h : nm.isPrefixOf t = false) :
    tightTryName nm t = none := by
  unfold tightTryName
  rw [h]
  rfl

theorem tryName_none_of_not_isPrefixOf (nm t : Text) (h : nm.isPrefixOf t = false) :
    tryName nm t = none := by
  unfold tryName
  rw [h]
  rfl

theorem tightTryName_isPrefixOf (nm t : Text) (r : Text × Text)
    (h : tightTryName nm t = some r) : nm.isPrefixOf t = true := by
  by_contra hc
  rw [tightTryName_none_of_not_isPrefixOf nm t (Bool.eq_false_iff.2 hc)] at h
  cases h

theorem matchAt_eq_of_env (t : Text) (r : Text × Text)
    (h1 : tryName stdName t = none) (h : tryName envName t = some r) :
    matchAt t = some r := by
  unfold matchAt
  rw [h1, h]

theorem matchAt_eq_of_dotenv (t : Text) (r : Text × Text)
    (h1 : tryName stdName t = none) (h2 : tryName envName t = none)
    (h : tryName dotenvName t = some r) : matchAt t = some r := by
  unfold matchAt
  rw [h1, h2, h]

theorem matchAt_eq_of_std (t : Text) (r : Text × Text)
    (h : tryName stdName t = some r) : matchAt t = some r := by
  unfold matchAt
  rw [h]

theorem distinct_heads_isPrefixOf_false (nm1 nm2 t : Text) (h1 : nm1.isPrefixOf t = true)
    (hn1 : nm1 ≠ []) (hn2 : nm2 ≠ []) (hh : nm1.head? ≠ nm2.head?) :
    nm2.isPrefixOf t = false := by
  by_contra hc
  have ha := isPrefixOf_head h1 hn1
  have hb := isPrefixOf_head (Bool.of_not_eq_false hc) hn2
  rw [ha] at hb
  exact hh hb

theorem tightMatchAt_imp_matchAt (t : Text) (r : Text × Text)
    (h : tightMatchAt t = some r) : matchAt t = some r := by
  unfold tightMatchAt at h
  cases h1 : tightTryName stdName t with
  | some r1 =>
    rw [h1] at h
    have h' : some r1 = some r := h
    injection h' with h''
    exact h'' ▸ matchAt_eq_of_std t r1 (tightTryName_imp_tryName _ _ _ h1)
  | none =>
    rw [h1] at h
    have h2 : (match tightTryName envName t with
        | some r0 => some r0
        | none => tightTryName dotenvName t) = some r := h
    cases h3 : tightTryName envName t with
    | some r2 =>
      rw [h3] at h2
      have h' : some r2 = some r := h2
      injection h' with h''
      have henvp := tightTryName_isPrefixOf _ _ _ h3
      have hstd : stdName.isPrefixOf t = false :=
        distinct_heads_isPrefixOf_false envName stdName t henvp (by decide) (by decide) (by decide)
      exact h'' ▸ matchAt_eq_of_env t r2 (tryName_none_of_not_isPrefixOf _ _ hstd)
        (tightTryName_imp_tryName _ _ _ h3)
    | none =>
      rw [h3] at h2
      have h4 : tightTryName dotenvName t = some r := h2
      have hdotp := tightTryName_isPrefixOf _ _ _ h4
      have hstd : stdName.isPrefixOf t = false :=
        distinct_heads_isPrefixOf_false dotenvName stdName t hdotp (by decide) (by decide) (by decide)
      have henv : envName.isPrefixOf t = false :=
        distinct_heads_isPrefixOf_false dotenvName envName t hdotp (by decide) (by decide) (by decide)
      exact matchAt_eq_of_dotenv t r (tryName_none_of_not_isPrefixOf _ _ hstd)
        (tryName_none_of_not_isPrefixOf _ _ henv) (tightTryName_imp_tryName _ _ _ h4)

theorem tightArgs_some_shape (t : Text) (r : Text × Text) (h : tightArgs t = some r) :
    ∃ t2, t = '(' :: t2 := by
  cases t with
  | nil => cases h
  | cons c t2 =>
    by_cases hc : c = '('
    · exact ⟨t2, by rw [hc]⟩
    · rw [tightArgs_cons_ne c t2 hc] at h
      cases h

theorem prefix_of_append_eq {p u t : Text} (h : t = p ++ u) : p.isPrefixOf t = true := by
  rw [h]
  exact List.isPrefixOf_iff_prefix.2 (List.prefix_append p u)

theorem eq_append_drop_of_isPrefixOf {p t : Text} (h : p.isPrefixOf t = true) :
    t = p ++ t.drop p.length := by
  rcases List.isPrefixOf_iff_prefix.1 h with ⟨u, hu⟩
  rw [← hu, List.drop_left]

theorem tightTryName_pattern (nm t : Text) (r : Text × Text)
    (h : tightTryName nm t = some r) :
    (nm ++ ['(']).isPrefixOf t = true ∨ (nm ++ osSuffix ++ ['(']).isPrefixOf t = true := by
  have hp := tightTryName_isPrefixOf _ _ _ h
  have ht := eq_append_drop_of_isPrefixOf hp
  have han : tightAfterName (t.drop nm.length) = some r := by
    unfold tightTryName at h
    rw [if_pos hp] at h
    exact h
  set u := t.drop nm.length with hu
  unfold tightAfterName at han
  by_cases hos : osSuffix.isPrefixOf u
  · rw [if_pos hos] at han
    have huos := eq_append_drop_of_isPrefixOf hos
    cases h3 : tightArgs (u.drop 3) with
    | some r3 =>
      rcases tightArgs_some_shape _ _ h3 with ⟨x, hx⟩
      right
      have hlen : osSuffix.length = 3 := by decide
      apply prefix_of_append_eq (u := x)
      rw [ht, huos, hlen, hx]
      simp [List.append_assoc]
    | none =>
      rw [h3] at han
      have h' : tightArgs u = some r := han
      rcases tightArgs_some_shape _ _ h' with ⟨x, hx⟩
      exfalso
      have : u.head? = some '_' := by
        rw [huos]
        rfl
      rw [hx] at this
      cases this
  · rw [if_neg hos] at han
    rcases tightArgs_some_shape _ _ han with ⟨x, hx⟩
    left
    apply prefix_of_append_eq (u := x)
    rw [ht, hx]
    simp

theorem tightMatchAt_cases (t : Text) (r : Text × Text) (h : tightMatchAt t = some r) :
    tightTryName stdName t = some r ∨ tightTryName envName t = some r
      ∨ tightTryName dotenvName t = some r := by
  unfold tightMatchAt at h
  cases h1 : tightTryName stdName t with
  | some r1 =>
    rw [h1] at h
    have h' : some r1 = some r := h
    exact Or.inl h'
  | none =>
    rw [h1] at h
    have h2 : (match tightTryName envName t with
        | some r0 => some r0
        | none => tightTryName dotenvName t) = some r := h
    cases h3 : tightTryName envName t with
    | some r2 =>
      rw [h3] at h2
      have h' : some r2 = some r := h2
      exact Or.inr (Or.inl h')
    | none =>
      rw [h3] at h2
      exact Or.inr (Or.inr h2)

theorem tightMatchAt_pattern (t : Text) (r : Text × Text) (h : tightMatchAt t = some r) :
    ∃ p ∈ acPatterns, p.isPrefixOf t = true := by
  rcases tightMatchAt_cases t r h with h1 | h1 | h1
  · rcases tightTryName_pattern _ _ _ h1 with h2 | h2
    · exact ⟨stdName ++ ['('], by decide, h2⟩
    · exact ⟨stdName ++ osSuffix ++ ['('], by decide, h2⟩
  · rcases tightTryName_pattern _ _ _ h1 with h2 | h2
    · exact ⟨envName ++ ['('], by decide, h2⟩
    · exact ⟨envName ++ osSuffix ++ ['('], by decide, h2⟩
  · rcases tightTryName_pattern _ _ _ h1 with h2 | h2
    · exact ⟨dotenvName ++ ['('], by decide, h2⟩
    · exact ⟨dotenvName ++ osSuffix ++ ['('], by decide, h2⟩

theorem containsSub_iff (p : Text) :
    ∀ t : Text, containsSub p t = true ↔ ∃ s, s.IsSuffix t ∧ p.isPrefixOf s = true := by
  intro t
  induction t with
  | nil =>
    unfold containsSub
    constructor
    · intro h
      refine ⟨[], List.suffix_rfl, ?_⟩
      cases p with
      | nil => rfl
      | cons a l => cases h
    · rintro ⟨s, hs, hp⟩
      have : s = [] := List.suffix_nil.1 hs
      subst this
      cases p with
      | nil => rfl
      | cons a l => cases hp
  | cons c rest ih =>
    unfold containsSub
    rw [Bool.or_eq_true, ih]
    constructor
    · rintro (h | ⟨s, hs, hp⟩)
      · exact ⟨c :: rest, List.suffix_rfl, h⟩
      · exact ⟨s, hs.trans (List.suffix_cons c rest), hp⟩
    · rintro ⟨s, hs, hp⟩
      rcases List.suffix_cons_iff.1 hs with rfl | hs'
      · exact Or.inl hp
      · exact Or.inr ⟨s, hs', hp⟩

theorem acIsMatch_of_pattern_at (p s t : Text) (hp : p ∈ acPatterns)
    (hpre : p.isPrefixOf s = true) (hsuf : s.IsSuffix t) : acIsMatch t = true := by
  unfold acIsMatch
  rw [List.any_eq_true]
  exact ⟨p, hp, (containsSub_iff p t).2 ⟨s, hsuf, hpre⟩⟩

theorem findAll_ne_nil_of_matchAt (t : Text) (r : Text × Text)
    (h : matchAt t = some r) : findAll t ≠ [] := by
  obtain ⟨n, after⟩ := r
  cases t with
  | nil =>
    rw [show matchAt ([] : Text) = none from rfl] at h
    cases h
  | cons c rest =>
    unfold findAll
    simp only [List.length_cons, findAllFuel, h]
    exact List.cons_ne_nil _ _

/-- C1 amended: the pre-filter has no false negatives for the regex matches
whose opening parenthesis immediately follows the call name (with optional
_os): every such tight match is a regex match, makes the extractor produce
at least one capture on its span, and forces the Aho-Corasick matcher to
return true on every span containing it.  (The unrestricted claim fails:
the regex tolerates whitespace before the parenthesis while all six
literal patterns end in one — see the counterexample.) -/
theorem c1_prefilter_tight_no_false_negative (t s : Text) (r : Text × Text)
    (hsuf : s.IsSuffix t) (h : tightMatchAt s = some r) :
    matchAt s = some r ∧ findAll s ≠ [] ∧ acIsMatch t = true := by
  have h1 := tightMatchAt_imp_matchAt s r h
  refine ⟨h1, findAll_ne_nil_of_matchAt s r h1, ?_⟩
  rcases tightMatchAt_pattern s r h with ⟨p, hp, hpre⟩
  exact acIsMatch_of_pattern_at p s t hp hpre hsuf

/-- C1 counterexample: on the span env::var ("FOO") the capture regex
produces the match FOO, but no literal pattern occurs (each one ends in an
opening parenthesis glued to the call name, and here a space intervenes),
so the Aho-Corasick matcher returns false and the gated scan loses the
output. -/
theorem c1_counterexample :
    findAll ("env::var (\"FOO\")".toList) = ["FOO".toList]
    ∧ acIsMatch ("env::var (\"FOO\")".toList) = false := by
  exact ⟨by decide, by decide⟩

/-- Witness for C1's amended statement at a concrete tight call. -/
theorem c1_witness :
    matchAt ("env::var(\"A\")".toList) = some ("A".toList, [])
    ∧ findAll ("env::var(\"A\")".toList) ≠ []
    ∧ acIsMatch ("env::var(\"A\")".toList) = true :=
  c1_prefilter_tight_no_false_negative ("env::var(\"A\")".toList) "env::var(\"A\")".toList
    ("A".toList, []) List.suffix_rfl (by decide)

/-! ## C8: the tree walker -/

theorem walkList_shape (pre : List Text) (es : List FSTree) :
    ∀ p, p ∈ walkList pre es →
      ∃ mid last, p = pre ++ mid ++ [last] ∧ extOf last = some ("rs".toList)
        ∧ ∀ d ∈ mid, skipDir d = false := by
  induction pre, es using walkList.induct with
  | case1 pre =>
    intro p hp
    rw [walkList] at hp
    cases hp
  | case2 pre name es ih =>
    intro p hp
    rw [walkList] at hp
    rcases List.mem_append.1 hp with hp1 | hp1
    · by_cases hrs : extOf name = some ("rs".toList)
      · rw [if_pos hrs] at hp1
        rcases List.mem_singleton.1 hp1 with rfl
        exact ⟨[], name, by simp, hrs, by simp⟩
      · rw [if_neg hrs] at hp1
        cases hp1
    · exact ih p hp1
  | case3 pre name sub es ihsub ih =>
    intro p hp
    rw [walkList] at hp
    rcases List.mem_append.1 hp with hp1 | hp1
    · by_cases hskip : skipDir name = true
      · rw [if_pos hskip] at hp1
        cases hp1
      · rw [if_neg hskip] at hp1
        rcases ihsub p hp1 with ⟨mid, last, hpath, hext, hok⟩
        refine ⟨name :: mid, last, ?_, hext, ?_⟩
        · rw [hpath]
          simp
        · intro d hd
          rcases List.mem_cons.1 hd with rfl | hd'
          · exact Bool.eq_false_iff.2 hskip
          · exact hok d hd'
    · exact ih p hp1

/-- C8: every path find_rust_files returns names a file with the rs
extension, and none of the directories leading to it is hidden (name
starting with a dot) or named target; files under such directories are
never collected, so their variables never reach scan_directory. -/
theorem c8_find_rust_files_paths (root : List FSTree) (p : List Text)
    (hp : p ∈ findRustFiles root) :
    ∃ dirs last, p = dirs ++ [last] ∧ extOf last = some ("rs".toList)
      ∧ ∀ d ∈ dirs, skipDir d = false := by
  rcases walkList_shape [] root p hp with ⟨mid, last, hpath, hext, hok⟩
  exact ⟨mid, last, by simpa using hpath, hext, hok⟩

/-- Witness for C8 at a concrete tree: the file src/main.rs is collected
(while target/gen.rs and .git/a.rs are not even produced), and the theorem
yields its shape. -/
theorem c8_witness :
    ∃ dirs last, ["src".toList, "main.rs".toList] = dirs ++ [last]
      ∧ extOf last = some ("rs".toList) ∧ ∀ d ∈ dirs, skipDir d = false :=
  c8_find_rust_files_paths
    [ FSTree.dir ("src".toList) [FSTree.file ("main.rs".toList)],
      FSTree.dir ("target".toList) [FSTree.file ("gen.rs".toList)],
      FSTree.dir (".git".toList) [FSTree.file ("a.rs".toList)] ]
    ["src".toList, "main.rs".toList]
    (by simp [findRustFiles, walkList, extOf, skipDir])

/-! ## C4: merge semantics of generate_env_file -/

theorem lookupKey_append (k : Text) :
    ∀ (m m' : List (Text × Text)),
      lookupKey k (m ++ m')
        = match lookupKey k m with
          | some v => some v
          | none => lookupKey k m' := by
  intro m m'
  induction m with
  | nil => rfl
  | cons p rest ih =>
    obtain ⟨k', v⟩ := p
    by_cases hk : k' = k
    · simp [lookupKey, hk]
    · simp only [List.cons_append, lookupKey, if_neg hk]
      exact ih

theorem lookupKey_orInsert_of_some (k n : Text) (v : Text) (m : List (Text × Text))
    (h : lookupKey k m = some v) : lookupKey k (orInsert m n) = some v := by
  unfold orInsert
  by_cases hc : containsKey n m
  · rw [if_pos hc]
    exact h
  · rw [if_neg hc, lookupKey_append, h]

theorem lookupKey_mergeVars_of_some (k : Text) (v : Text) :
    ∀ (vars : List Text) (m : List (Text × Text)), lookupKey k m = some v →
      lookupKey k (mergeVars vars m) = some v := by
  intro vars
  induction vars with
  | nil => intro m h; exact h
  | cons n vars ih =>
    intro m h
    exact ih (orInsert m n) (lookupKey_orInsert_of_some k n v m h)

theorem lookupKey_orInsert_self (n : Text) (m : List (Text × Text))
    (h : lookupKey n m = none) : lookupKey n (orInsert m n) = some [] := by
  unfold orInsert containsKey
  rw [h]
  simp only [Option.isSome_none, Bool.false_eq_true, if_false]
  rw [lookupKey_append, h, lookupKey]
  rw [if_pos rfl]

theorem lookupKey_orInsert_other (k n : Text) (m : List (Text × Text)) (hne : n ≠ k) :
    lookupKey k (orInsert m n) = lookupKey k m := by
  unfold orInsert
  by_cases hc : containsKey n m
  · rw [if_pos hc]
  · rw [if_neg hc, lookupKey_append]
    cases h : lookupKey k m with
    | some v => rfl
    | none =>
      unfold lookupKey
      rw [if_neg hne]
      rfl

theorem lookupKey_mergeVars_of_discovered (k : Text) :
    ∀ (vars : List Text) (m : List (Text × Text)), k ∈ vars → lookupKey k m = none →
      lookupKey k (mergeVars vars m) = some [] := by
  intro vars
  induction vars with
  | nil => intro m h; cases h
  | cons n vars ih =>
    intro m hmem hnone
    by_cases hk : n = k
    · subst hk
      exact lookupKey_mergeVars_of_some n [] vars (orInsert m n)
        (lookupKey_orInsert_self n m hnone)
    · rcases List.mem_cons.1 hmem with rfl | hmem'
      · exact absurd rfl hk
      · exact ih (orInsert m n) hmem' ((lookupKey_orInsert_other k n m hk).trans hnone)

theorem mem_of_lookupKey_some (k v : Text) :
    ∀ (m : List (Text × Text)), lookupKey k m = some v → (k, v) ∈ m := by
  intro m
  induction m with
  | nil => intro h; cases h
  | cons p rest ih =>
    obtain ⟨k', v'⟩ := p
    intro h
    unfold lookupKey at h
    by_cases hk : k' = k
    · rw [if_pos hk] at h
      injection h with hv
      rw [← hk, hv]
      exact List.mem_cons_self _ _
    · rw [if_neg hk] at h
      exact List.mem_cons_of_mem _ (ih h)

theorem renderEntry_mem_generateLines (k v : Text) (vars : List Text)
    (m : List (Text × Text)) (h : lookupKey k (mergeVars vars m) = some v) :
    renderEntry (k, v) ∈ generateLines vars m := by
  unfold generateLines
  have h1 : (k, v) ∈ sortPairs (mergeVars vars m) := by
    unfold sortPairs
    rw [List.mem_insertionSort]
    exact mem_of_lookupKey_some k v _ h
  have h2 : renderEntry (k, v) ∈ (sortPairs (mergeVars vars m)).map renderEntry :=
    List.mem_map_of_mem renderEntry h1
  exact List.mem_cons_of_mem _ (List.mem_cons_of_mem _ (List.mem_cons_of_mem _ h2))

/-- C4: with merge_existing true, every key bound in the parsed existing
file keeps exactly its existing value — it is never overwritten or reset,
even when also freshly discovered — and every discovered key absent from
the existing mapping is added with the empty value; in both cases the
corresponding KEY=VALUE (or KEY=) line is written. -/
theorem c4_merge_preserves_values (vars : List Text) (prior : Text) (k v : Text) :
    (lookupKey k (parseEnv prior) = some v →
      lookupKey k (mergeVars vars (parseEnv prior)) = some v
      ∧ renderEntry (k, v) ∈ generateLines vars (parseEnv prior))
    ∧ (k ∈ vars → lookupKey k (parseEnv prior) = none →
      lookupKey k (mergeVars vars (parseEnv prior)) = some []
      ∧ renderEntry (k, []) ∈ generateLines vars (parseEnv prior)) := by
  constructor
  · intro h
    have h1 := lookupKey_mergeVars_of_some k v vars (parseEnv prior) h
    exact ⟨h1, renderEntry_mem_generateLines k v vars (parseEnv prior) h1⟩
  · intro hmem hnone
    have h1 := lookupKey_mergeVars_of_discovered k vars (parseEnv prior) hmem hnone
    exact ⟨h1, renderEntry_mem_generateLines k [] vars (parseEnv prior) h1⟩

/-- Witness for C4 at concrete inputs: an existing value survives the
merge and a fresh discovery is added empty. -/
theorem c4_witness :
    (lookupKey ("DATABASE_URL".toList)
        (mergeVars ["DATABASE_URL".toList, "NEW".toList]
          (parseEnv ("DATABASE_URL=postgres://x\n".toList)))
      = some ("postgres://x".toList)
      ∧ renderEntry ("DATABASE_URL".toList, "postgres://x".toList)
          ∈ generateLines ["DATABASE_URL".toList, "NEW".toList]
              (parseEnv ("DATABASE_URL=postgres://x\n".toList)))
    ∧ (lookupKey ("NEW".toList)
        (mergeVars ["DATABASE_URL".toList, "NEW".toList]
          (parseEnv ("DATABASE_URL=postgres://x\n".toList)))
      = some []
      ∧ renderEntry ("NEW".toList, [])
          ∈ generateLines ["DATABASE_URL".toList, "NEW".toList]
              (parseEnv ("DATABASE_URL=postgres://x\n".toList))) :=
  ⟨(c4_merge_preserves_values ["DATABASE_URL".toList, "NEW".toList]
      "DATABASE_URL=postgres://x\n".toList ("DATABASE_URL".toList)
      "postgres://x".toList).1 (by decide),
   (c4_merge_preserves_values ["DATABASE_URL".toList, "NEW".toList]
      "DATABASE_URL=postgres://x\n".toList ("NEW".toList) []).2 (by decide) (by decide)⟩

/-! ## C7: shape of the generated file -/

theorem leText_total : ∀ a b : Text, leText a b = true ∨ leText b a = true := by
  intro a
  induction a with
  | nil => intro b; exact Or.inl rfl
  | cons x xs ih =>
    intro b
    cases b with
    | nil => exact Or.inr rfl
    | cons y ys =>
      rcases Nat.lt_trichotomy x.toNat y.toNat with h | h | h
      · left
        unfold leText
        rw [if_pos h]
      · rcases ih ys with h2 | h2
        · left
          unfold leText
          rw [if_neg (by omega), if_neg (by omega)]
          exact h2
        · right
          unfold leText
          rw [if_neg (by omega), if_neg (by omega)]
          exact h2
      · right
        unfold leText
        rw [if_pos h]

theorem leText_trans :
    ∀ a b c : Text, leText a b = true → leText b c = true → leText a c = true := by
  intro a
  induction a with
  | nil => intro b c _ _; rfl
  | cons x xs ih =>
    intro b c hab hbc
    cases b with
    | nil => cases hab
    | cons y ys =>
      cases c with
      | nil => cases hbc
      | cons z zs =>
        unfold leText at hab hbc ⊢
        rcases Nat.lt_trichotomy x.toNat y.toNat with h1 | h1 | h1
        · rcases Nat.lt_trichotomy y.toNat z.toNat with h2 | h2 | h2
          · rw [if_pos (by omega)]
          · rw [if_pos (by omega)]
          · rw [if_neg (by omega), if_pos h2] at hbc
            cases hbc
        · rcases Nat.lt_trichotomy y.toNat z.toNat with h2 | h2 | h2
          · rw [if_pos (by omega)]
          · rw [if_neg (by omega), if_neg (by omega)]
            rw [if_neg (by omega), if_neg (by omega)] at hab
            rw [if_neg (by omega), if_neg (by omega)] at hbc
            exact ih ys zs hab hbc
          · rw [if_neg (by omega), if_pos h2] at hbc
            cases hbc
        · rw [if_neg (by omega), if_pos h1] at hab
          cases hab

theorem sortPairs_sorted (l : List (Text × Text)) :
    List.Sorted (fun p q : Text × Text => leText p.1 q.1 = true) (sortPairs l) := by
  haveI : IsTotal (Text × Text) (fun p q : Text × Text => leText p.1 q.1 = true) :=
    ⟨fun a b => leText_total a.1 b.1⟩
  haveI : IsTrans (Text × Text) (fun p q : Text × Text => leText p.1 q.1 = true) :=
    ⟨fun a b c hab hbc => leText_trans a.1 b.1 c.1 hab hbc⟩
  exact List.sorted_insertionSort _ l

theorem mem_keys_upsert (a k v : Text) :
    ∀ m : List (Text × Text),
      a ∈ (upsert k v m).map Prod.fst ↔ a ∈ m.map Prod.fst ∨ a = k := by
  intro m
  induction m with
  | nil => simp [upsert, eq_comm]
  | cons p rest ih =>
    obtain ⟨k', v'⟩ := p
    by_cases hk : k' = k
    · subst hk
      show a ∈ ((if k' = k' then (k', v) :: rest else (k', v') :: upsert k' v rest).map
        Prod.fst) ↔ _
      rw [if_pos rfl]
      simp only [List.map_cons, List.mem_cons]
      constructor
      · rintro (rfl | h)
        · exact Or.inr rfl
        · exact Or.inl (Or.inr h)
      · rintro ((rfl | h) | rfl)
        · exact Or.inl rfl
        · exact Or.inr h
        · exact Or.inl rfl
    · show a ∈ ((if k' = k then (k, v) :: rest else (k', v') :: upsert k v rest).map
        Prod.fst) ↔ _
      rw [if_neg hk]
      simp only [List.map_cons, List.mem_cons, ih]
      tauto

theorem lookupKey_none_iff (k : Text) :
    ∀ m : List (Text × Text), lookupKey k m = none ↔ k ∉ m.map Prod.fst := by
  intro m
  induction m with
  | nil => simp [lookupKey]
  | cons p rest ih =>
    obtain ⟨k', v'⟩ := p
    unfold lookupKey
    by_cases hk : k' = k
    · rw [if_pos hk]
      simp [hk]
    · rw [if_neg hk]
      simp only [List.map_cons, List.mem_cons, ih]
      constructor
      · intro h hc
        rcases hc with hc | hc
        · exact hk hc.symm
        · exact h hc
      · intro h
        exact fun hc => h (Or.inr hc)

theorem keys_nodup_upsert (k v : Text) :
    ∀ m : List (Text × Text), (m.map Prod.fst).Nodup →
      ((upsert k v m).map Prod.fst).Nodup := by
  intro m
  induction m with
  | nil => intro _; simp [upsert]
  | cons p rest ih =>
    obtain ⟨k', v'⟩ := p
    intro hnd
    rw [List.map_cons, List.nodup_cons] at hnd
    by_cases hk : k' = k
    · subst hk
      show (((if k' = k' then (k', v) :: rest else (k', v') :: upsert k' v rest)).map
        Prod.fst).Nodup
      rw [if_pos rfl]
      simp only [List.map_cons, List.nodup_cons]
      exact hnd
    · show (((if k' = k then (k, v) :: rest else (k', v') :: upsert k v rest)).map
        Prod.fst).Nodup
      rw [if_neg hk]
      simp only [List.map_cons, List.nodup_cons]
      refine ⟨?_, ih hnd.2⟩
      rw [mem_keys_upsert]
      rintro (h | rfl)
      · exact hnd.1 h
      · exact hk rfl

theorem keys_nodup_parseLine (m : List (Text × Text)) (line : Text)
    (hnd : (m.map Prod.fst).Nodup) : ((parseLine m line).map Prod.fst).Nodup := by
  unfold parseLine
  by_cases hskip : (trimText line).isEmpty || (trimText line).head? = some '#'
  · simp only [hskip, if_true]
    exact hnd
  · simp only [hskip, Bool.false_eq_true, if_false]
    cases hsp : splitEq (trimText line) with
    | none => exact hnd
    | some kv => exact keys_nodup_upsert _ _ m hnd

theorem keys_nodup_parseEnv_fold :
    ∀ (ls : List Text) (m : List (Text × Text)), (m.map Prod.fst).Nodup →
      ((ls.foldl parseLine m).map Prod.fst).Nodup := by
  intro ls
  induction ls with
  | nil => intro m h; exact h
  | cons l ls ih =>
    intro m h
    exact ih (parseLine m l) (keys_nodup_parseLine m l h)

theorem keys_nodup_parseEnv (content : Text) : ((parseEnv content).map Prod.fst).Nodup :=
  keys_nodup_parseEnv_fold (linesOf content) [] (by simp)

theorem keys_nodup_orInsert (n : Text) (m : List (Text × Text))
    (hnd : (m.map Prod.fst).Nodup) : ((orInsert m n).map Prod.fst).Nodup := by
  unfold orInsert
  by_cases hc : containsKey n m
  · rw [if_pos hc]
    exact hnd
  · rw [if_neg hc]
    have hnotin : n ∉ m.map Prod.fst := by
      rw [← lookupKey_none_iff]
      unfold containsKey at hc
      cases h : lookupKey n m with
      | none => rfl
      | some v => rw [h] at hc; exact absurd rfl hc
    rw [List.map_append, List.nodup_append]
    refine ⟨hnd, by simp, ?_⟩
    intro a ha hb
    simp only [List.map_cons, List.map_nil, List.mem_singleton] at hb
    rw [hb] at ha
    exact hnotin ha

theorem keys_nodup_mergeVars :
    ∀ (vars : List Text) (m : List (Text × Text)), (m.map Prod.fst).Nodup →
      ((mergeVars vars m).map Prod.fst).Nodup := by
  intro vars
  induction vars with
  | nil => intro m h; exact h
  | cons n vars ih =>
    intro m h
    exact ih (orInsert m n) (keys_nodup_orInsert n m h)

theorem keys_nodup_sortPairs (l : List (Text × Text))
    (hnd : (l.map Prod.fst).Nodup) : ((sortPairs l).map Prod.fst).Nodup := by
  have hperm : (sortPairs l).Perm l := List.perm_insertionSort _ l
  exact ((hperm.map Prod.fst).nodup_iff).2 hnd

/-- C7: the generated file is exactly the two fixed comment header lines,
one blank line, then one KEY= or KEY=VALUE line per entry (renderEntry),
each line terminated by a newline (joinNl), with the entries pairwise in
strictly ascending byte order on unique keys. -/
theorem c7_output_format (vars : List Text) (prior : Text) :
    genFromContent vars prior
      = joinNl (header1 :: header2 :: [] ::
          (sortPairs (mergeVars vars (parseEnv prior))).map renderEntry)
    ∧ List.Pairwise (fun p q : Text × Text => leText p.1 q.1 = true ∧ p.1 ≠ q.1)
        (sortPairs (mergeVars vars (parseEnv prior))) := by
  constructor
  · rfl
  · have hsorted := sortPairs_sorted (mergeVars vars (parseEnv prior))
    have hnd : ((sortPairs (mergeVars vars (parseEnv prior))).map Prod.fst).Nodup :=
      keys_nodup_sortPairs _ (keys_nodup_mergeVars vars _ (keys_nodup_parseEnv prior))
    have hne : List.Pairwise (fun p q : Text × Text => p.1 ≠ q.1)
        (sortPairs (mergeVars vars (parseEnv prior))) := List.pairwise_map.1 hnd
    exact List.Pairwise.and hsorted hne

/-! ## C10: the empty variable name -/

/-- C10: the capture group admits zero characters, so a call with an empty
quoted argument puts the empty name into scan_file's result set, and
generate_env_file then emits the line consisting of just an equals sign. -/
theorem c10_empty_name :
    ([] : Text) ∈ scanFileContent (some [])
        "let v = env::var(\"\").unwrap();".toList
    ∧ genFromContent [([] : Text)] []
        = joinNl [header1, header2, [], ['=']] := by
  exact ⟨by decide, by decide⟩

/-! ## C3: what the extractor yields -/

theorem readCapture_some :
    ∀ (t n r : Text), readCapture t = some (n, r) → t = n ++ '"' :: r ∧ CleanCapture n := by
  intro t
  induction t with
  | nil => intro n r h; cases h
  | cons c rest ih =>
    intro n r h
    unfold readCapture at h
    by_cases hq : c = '"'
    · rw [if_pos hq] at h
      injection h with h'
      injection h' with h1 h2
      subst h1
      subst h2
      subst hq
      exact ⟨rfl, fun c hc => absurd hc (List.not_mem_nil c)⟩
    · rw [if_neg hq] at h
      by_cases hbad : c = '\n' ∨ c = '\r'
      · rw [if_pos hbad] at h
        cases h
      · rw [if_neg hbad] at h
        cases hrc : readCapture rest with
        | none =>
          rw [hrc] at h
          cases h
        | some p =>
          obtain ⟨n0, r0⟩ := p
          rw [hrc] at h
          have h' : some ((c :: n0, r0) : Text × Text) = some (n, r) := h
          injection h' with h''
          injection h'' with h1 h2
          subst h2
          rcases ih n0 r0 hrc with ⟨hshape, hclean⟩
          subst h1
          constructor
          · rw [hshape]
            rfl
          · intro d hd
            rcases List.mem_cons.1 hd with rfl | hd'
            · exact ⟨hq, fun hn => hbad (Or.inl hn), fun hr => hbad (Or.inr hr)⟩
            · exact hclean d hd'

theorem dropWS_decomp (t : Text) :
    IsWSRun (t.takeWhile isWS) ∧ t = t.takeWhile isWS ++ dropWS t :=
  ⟨fun _ hc => List.mem_takeWhile_imp hc, (List.takeWhile_append_dropWhile isWS t).symm⟩

theorem afterParen_some (t n : Text) (r : Text) (h : afterParen t = some (n, r)) :
    ∃ w2 w3, IsWSRun w2 ∧ IsWSRun w3 ∧ CleanCapture n
      ∧ t = w2 ++ '"' :: n ++ '"' :: w3 ++ ')' :: r := by
  rcases dropWS_decomp t with ⟨hws2, hteq⟩
  unfold afterParen at h
  split at h
  · rename_i c t3 heq
    split at h
    · rename_i hq
      split at h
      · rename_i n0 r0 hrc
        rcases dropWS_decomp r0 with ⟨hws3, hreq⟩
        split at h
        · rename_i c2 t4 heq2
          split at h
          · rename_i hp
            injection h with h'
            injection h' with h1 h2
            rw [h1] at hrc
            rw [h2] at heq2
            rcases readCapture_some t3 n r0 hrc with ⟨ht3, hclean⟩
            refine ⟨t.takeWhile isWS, r0.takeWhile isWS, hws2, hws3, hclean, ?_⟩
            conv_lhs => rw [hteq, heq, hq, ht3]
            conv_lhs => rw [hreq, heq2, hp]
            simp
          · cases h
        · cases h
      · cases h
    · cases h
  · cases h

theorem matchArgs_some (t n : Text) (r : Text) (h : matchArgs t = some (n, r)) :
    ∃ w1 w2 w3, IsWSRun w1 ∧ IsWSRun w2 ∧ IsWSRun w3 ∧ CleanCapture n
      ∧ t = w1 ++ '(' :: w2 ++ '"' :: n ++ '"' :: w3 ++ ')' :: r := by
  rcases dropWS_decomp t with ⟨hws1, hteq⟩
  unfold matchArgs at h
  split at h
  · rename_i c t2 heq
    split at h
    · rename_i hp
      rcases afterParen_some t2 n r h with ⟨w2, w3, hws2, hws3, hclean, ht2⟩
      refine ⟨t.takeWhile isWS, w2, w3, hws1, hws2, hws3, hclean, ?_⟩
      conv_lhs => rw [hteq, heq, hp, ht2]
      simp
    · cases h
  · cases h

theorem matchAfterName_some (t n : Text) (r : Text) (h : matchAfterName t = some (n, r)) :
    ∃ os, (os = [] ∨ os = osSuffix)
      ∧ ∃ w1 w2 w3, IsWSRun w1 ∧ IsWSRun w2 ∧ IsWSRun w3 ∧ CleanCapture n
        ∧ t = os ++ w1 ++ '(' :: w2 ++ '"' :: n ++ '"' :: w3 ++ ')' :: r := by
  unfold matchAfterName at h
  by_cases hos : osSuffix.isPrefixOf t
  · rw [if_pos hos] at h
    cases hm : matchArgs (t.drop 3) with
    | some p =>
      obtain ⟨n0, r0⟩ := p
      rw [hm] at h
      have h' : some ((n0, r0) : Text × Text) = some (n, r) := h
      injection h' with h''
      injection h'' with h1 h2
      rw [h1, h2] at hm
      rcases matchArgs_some _ n r hm with ⟨w1, w2, w3, hws1, hws2, hws3, hclean, hdrop⟩
      refine ⟨osSuffix, Or.inr rfl, w1, w2, w3, hws1, hws2, hws3, hclean, ?_⟩
      have ht := eq_append_drop_of_isPrefixOf hos
      have hlen : osSuffix.length = 3 := by decide
      rw [hlen] at ht
      conv_lhs => rw [ht, hdrop]
      simp
    | none =>
      rw [hm] at h
      have h' : matchArgs t = some (n, r) := h
      rcases matchArgs_some t n r h' with ⟨w1, w2, w3, hws1, hws2, hws3, hclean, ht⟩
      exact ⟨[], Or.inl rfl, w1, w2, w3, hws1, hws2, hws3, hclean, ht⟩
  · rw [if_neg hos] at h
    rcases matchArgs_some t n r h with ⟨w1, w2, w3, hws1, hws2, hws3, hclean, ht⟩
    exact ⟨[], Or.inl rfl, w1, w2, w3, hws1, hws2, hws3, hclean, ht⟩

theorem matchAt_some (t n : Text) (r : Text) (h : matchAt t = some (n, r)) :
    ∃ cname os w1 w2 w3,
      (cname = stdName ∨ cname = envName ∨ cname = dotenvName)
      ∧ (os = [] ∨ os = osSuffix)
      ∧ IsWSRun w1 ∧ IsWSRun w2 ∧ IsWSRun w3 ∧ CleanCapture n
      ∧ t = cname ++ os ++ w1 ++ '(' :: w2 ++ '"' :: n ++ '"' :: w3 ++ ')' :: r := by
  have hcases : tryName stdName t = some (n, r) ∨ tryName envName t = some (n, r)
      ∨ tryName dotenvName t = some (n, r) := by
    unfold matchAt at h
    cases h1 : tryName stdName t with
    | some r1 =>
      rw [h1] at h
      have h' : some r1 = some (n, r) := h
      exact Or.inl h'
    | none =>
      rw [h1] at h
      have h2 : (match tryName envName t with
          | some r0 => some r0
          | none => tryName dotenvName t) = some (n, r) := h
      cases h3 : tryName envName t with
      | some r2 =>
        rw [h3] at h2
        have h' : some r2 = some (n, r) := h2
        exact Or.inr (Or.inl h')
      | none =>
        rw [h3] at h2
        exact Or.inr (Or.inr h2)
  have hname : ∀ nm : Text, tryName nm t = some (n, r) →
      nm.isPrefixOf t = true ∧ matchAfterName (t.drop nm.length) = some (n, r) := by
    intro nm htn
    unfold tryName at htn
    by_cases hp : nm.isPrefixOf t
    · rw [if_pos hp] at htn
      exact ⟨hp, htn⟩
    · rw [if_neg hp] at htn
      cases htn
  have hbuild : ∀ nm : Text, tryName nm t = some (n, r) →
      ∃ os w1 w2 w3, (os = [] ∨ os = osSuffix)
        ∧ IsWSRun w1 ∧ IsWSRun w2 ∧ IsWSRun w3 ∧ CleanCapture n
        ∧ t = nm ++ os ++ w1 ++ '(' :: w2 ++ '"' :: n ++ '"' :: w3 ++ ')' :: r := by
    intro nm htn
    rcases hname nm htn with ⟨hp, han⟩
    rcases matchAfterName_some _ n r han with ⟨os, hos, w1, w2, w3, h1, h2, h3, h4, hdrop⟩
    refine ⟨os, w1, w2, w3, hos, h1, h2, h3, h4, ?_⟩
    have ht := eq_append_drop_of_isPrefixOf hp
    conv_lhs => rw [ht, hdrop]
    simp
  rcases hcases with h1 | h1 | h1
  · rcases hbuild stdName h1 with ⟨os, w1, w2, w3, hrest⟩
    exact ⟨stdName, os, w1, w2, w3, Or.inl rfl, hrest⟩
  · rcases hbuild envName h1 with ⟨os, w1, w2, w3, hrest⟩
    exact ⟨envName, os, w1, w2, w3, Or.inr (Or.inl rfl), hrest⟩
  · rcases hbuild dotenvName h1 with ⟨os, w1, w2, w3, hrest⟩
    exact ⟨dotenvName, os, w1, w2, w3, Or.inr (Or.inr rfl), hrest⟩

theorem matchAt_suffix (t n : Text) (r : Text) (h : matchAt t = some (n, r)) :
    r.IsSuffix t := by
  rcases matchAt_some t n r h with ⟨cname, os, w1, w2, w3, _, _, _, _, _, _, ht⟩
  refine ⟨cname ++ os ++ w1 ++ '(' :: w2 ++ '"' :: n ++ '"' :: w3 ++ [')'], ?_⟩
  rw [ht]
  simp

theorem findAllFuel_mem :
    ∀ (fuel : Nat) (t n : Text), n ∈ findAllFuel fuel t →
      ∃ s r, s.IsSuffix t ∧ matchAt s = some (n, r) := by
  intro fuel
  induction fuel with
  | zero =>
    intro t n h
    simp [findAllFuel] at h
  | succ f ih =>
    intro t n h
    cases t with
    | nil => simp [findAllFuel] at h
    | cons c rest =>
      cases hm : matchAt (c :: rest) with
      | some p =>
        obtain ⟨n0, after⟩ := p
        simp only [findAllFuel, hm] at h
        have h' : n ∈ n0 :: findAllFuel f after := h
        rcases List.mem_cons.1 h' with rfl | h''
        · exact ⟨c :: rest, after, List.suffix_rfl, hm⟩
        · rcases ih after n h'' with ⟨s, r, hsuf, hm2⟩
          exact ⟨s, r, hsuf.trans (matchAt_suffix _ _ _ hm), hm2⟩
      | none =>
        simp only [findAllFuel, hm] at h
        rcases ih rest n h with ⟨s, r, hsuf, hm2⟩
        exact ⟨s, r, hsuf.trans (List.suffix_cons c rest), hm2⟩

theorem findAll_imp_spanShape (t n : Text) (h : n ∈ findAll t) : SpanShape t n := by
  rcases findAllFuel_mem t.length t n h with ⟨s, r, hsuf, hm⟩
  rcases matchAt_some s n r hm with ⟨cname, os, w1, w2, w3, hcn, hos, h1, h2, h3, h4, hs⟩
  rcases hsuf with ⟨u, hu⟩
  refine ⟨u, cname, os, w1, w2, w3, r, hcn, hos, h1, h2, h3, h4, ?_⟩
  rw [← hu, hs]
  simp

theorem dropWS_ws_append (w : Text) (c : Char) (x : Text) (hw : IsWSRun w)
    (hc : isWS c = false) : dropWS (w ++ c :: x) = c :: x := by
  induction w with
  | nil => exact dropWS_cons_of_not_ws x hc
  | cons a w' ih =>
    have ha : isWS a = true := hw a (List.mem_cons_self a w')
    have hw' : IsWSRun w' := fun d hd => hw d (List.mem_cons_of_mem a hd)
    show dropWS (a :: (w' ++ c :: x)) = c :: x
    unfold dropWS
    rw [List.dropWhile_cons, ha]
    exact ih hw'

theorem readCapture_clean :
    ∀ (n r : Text), CleanCapture n → readCapture (n ++ '"' :: r) = some (n, r) := by
  intro n
  induction n with
  | nil =>
    intro r _
    show readCapture ('"' :: r) = some ([], r)
    unfold readCapture
    rw [if_pos rfl]
  | cons c n' ih =>
    intro r hc
    have hc0 := hc c (List.mem_cons_self c n')
    have hc' : CleanCapture n' := fun d hd => hc d (List.mem_cons_of_mem c hd)
    show readCapture (c :: (n' ++ '"' :: r)) = some (c :: n', r)
    unfold readCapture
    rw [if_neg hc0.1, if_neg (by push_neg; exact ⟨hc0.2.1, hc0.2.2⟩), ih r hc']

theorem afterParen_front (w2 w3 n post : Text) (h2 : IsWSRun w2) (h3 : IsWSRun w3)
    (hcl : CleanCapture n) :
    afterParen (w2 ++ ('"' :: (n ++ ('"' :: (w3 ++ (')' :: post)))))) = some (n, post) := by
  unfold afterParen
  rw [dropWS_ws_append w2 '"' (n ++ ('"' :: (w3 ++ (')' :: post)))) h2 (by decide)]
  show (if ('"' : Char) = '"' then
      match readCapture (n ++ ('"' :: (w3 ++ (')' :: post)))) with
      | some (n, r) =>
        match dropWS r with
        | c2 :: t4 => if c2 = ')' then some (n, t4) else none
        | [] => none
      | none => none
    else none) = some (n, post)
  rw [if_pos rfl, readCapture_clean n (w3 ++ (')' :: post)) hcl]
  show (match dropWS (w3 ++ (')' :: post)) with
      | c2 :: t4 => if c2 = ')' then some (n, t4) else none
      | [] => none) = some (n, post)
  rw [dropWS_ws_append w3 ')' post h3 (by decide)]
  show (if (')' : Char) = ')' then some (n, post) else none) = some (n, post)
  rw [if_pos rfl]

theorem matchArgs_front (w1 w2 w3 n post : Text) (h1 : IsWSRun w1) (h2 : IsWSRun w2)
    (h3 : IsWSRun w3) (hcl : CleanCapture n) :
    matchArgs (w1 ++ ('(' :: (w2 ++ ('"' :: (n ++ ('"' :: (w3 ++ (')' :: post))))))))
      = some (n, post) := by
  unfold matchArgs
  rw [dropWS_ws_append w1 '('
    (w2 ++ ('"' :: (n ++ ('"' :: (w3 ++ (')' :: post)))))) h1 (by decide)]
  show (if ('(' : Char) = '(' then
      afterParen (w2 ++ ('"' :: (n ++ ('"' :: (w3 ++ (')' :: post)))))) else none)
    = some (n, post)
  rw [if_pos rfl]
  exact afterParen_front w2 w3 n post h2 h3 hcl

theorem osSuffix_prefix_head (t : Text) (h : osSuffix.isPrefixOf t = true) :
    t.head? = some '_' := by
  rw [isPrefixOf_head h (by decide)]
  rfl

theorem matchAfterName_front (os w1 w2 w3 n post : Text)
    (hos : os = [] ∨ os = osSuffix) (h1 : IsWSRun w1) (h2 : IsWSRun w2) (h3 : IsWSRun w3)
    (hcl : CleanCapture n) :
    matchAfterName
        (os ++ (w1 ++ ('(' :: (w2 ++ ('"' :: (n ++ ('"' :: (w3 ++ (')' :: post)))))))))
      = some (n, post) := by
  rcases hos with rfl | rfl
  · have hnp : osSuffix.isPrefixOf
        ([] ++ (w1 ++ ('(' :: (w2 ++ ('"' :: (n ++ ('"' :: (w3 ++ (')' :: post)))))))))
        = false := by
      by_contra hc
      have hh := osSuffix_prefix_head _ (Bool.of_not_eq_false hc)
      cases w1 with
      | nil =>
        simp only [List.nil_append, List.head?_cons] at hh
        cases hh
      | cons a w1' =>
        simp only [List.nil_append, List.cons_append, List.head?_cons] at hh
        injection hh with hh'
        have := h1 a (List.mem_cons_self a w1')
        rw [hh'] at this
        cases this
    have hnp' : ¬ (osSuffix.isPrefixOf
        ([] ++ (w1 ++ ('(' :: (w2 ++ ('"' :: (n ++ ('"' :: (w3 ++ (')' :: post)))))))))
        = true) := by
      rw [hnp]
      exact Bool.false_ne_true
    unfold matchAfterName
    rw [if_neg hnp']
    show matchArgs (w1 ++ ('(' :: (w2 ++ ('"' :: (n ++ ('"' :: (w3 ++ (')' :: post))))))))
      = some (n, post)
    exact matchArgs_front w1 w2 w3 n post h1 h2 h3 hcl
  · have hp : osSuffix.isPrefixOf
        (osSuffix ++ (w1 ++ ('(' :: (w2 ++ ('"' :: (n ++ ('"' :: (w3 ++ (')' :: post)))))))))
        = true := by
      apply prefix_of_append_eq
        (u := w1 ++ ('(' :: (w2 ++ ('"' :: (n ++ ('"' :: (w3 ++ (')' :: post))))))))
      rfl
    unfold matchAfterName
    rw [if_pos hp]
    have hd3 : (osSuffix
          ++ (w1 ++ ('(' :: (w2 ++ ('"' :: (n ++ ('"' :: (w3 ++ (')' :: post))))))))).drop 3
        = w1 ++ ('(' :: (w2 ++ ('"' :: (n ++ ('"' :: (w3 ++ (')' :: post))))))) := by
      have hlen : osSuffix.length = 3 := by decide
      rw [← hlen, List.drop_left]
    rw [hd3, matchArgs_front w1 w2 w3 n post h1 h2 h3 hcl]

theorem tryName_front (nm os w1 w2 w3 n post : Text) (hos : os = [] ∨ os = osSuffix)
    (h1 : IsWSRun w1) (h2 : IsWSRun w2) (h3 : IsWSRun w3) (hcl : CleanCapture n) :
    tryName nm
        (nm ++ (os ++ (w1 ++ ('(' :: (w2 ++ ('"' :: (n ++ ('"' :: (w3 ++ (')' :: post))))))))))
      = some (n, post) := by
  unfold tryName
  rw [if_pos (prefix_of_append_eq rfl), List.drop_left]
  exact matchAfterName_front os w1 w2 w3 n post hos h1 h2 h3 hcl

theorem matchAt_front (cname os w1 w2 w3 n post : Text)
    (hcn : cname = stdName ∨ cname = envName ∨ cname = dotenvName)
    (hos : os = [] ∨ os = osSuffix) (h1 : IsWSRun w1) (h2 : IsWSRun w2) (h3 : IsWSRun w3)
    (hcl : CleanCapture n) :
    matchAt
        (cname
          ++ (os ++ (w1 ++ ('(' :: (w2 ++ ('"' :: (n ++ ('"' :: (w3 ++ (')' :: post))))))))))
      = some (n, post) := by
  rcases hcn with rfl | rfl | rfl
  · exact matchAt_eq_of_std _ _ (tryName_front stdName os w1 w2 w3 n post hos h1 h2 h3 hcl)
  · have hstd : stdName.isPrefixOf
        (envName
          ++ (os ++ (w1 ++ ('(' :: (w2 ++ ('"' :: (n ++ ('"' :: (w3 ++ (')' :: post)))))))))) = false :=
      distinct_heads_isPrefixOf_false envName stdName _ (prefix_of_append_eq rfl)
        (by decide) (by decide) (by decide)
    exact matchAt_eq_of_env _ _ (tryName_none_of_not_isPrefixOf _ _ hstd)
      (tryName_front envName os w1 w2 w3 n post hos h1 h2 h3 hcl)
  · have hstd : stdName.isPrefixOf
        (dotenvName
          ++ (os ++ (w1 ++ ('(' :: (w2 ++ ('"' :: (n ++ ('"' :: (w3 ++ (')' :: post)))))))))) = false :=
      distinct_heads_isPrefixOf_false dotenvName stdName _ (prefix_of_append_eq rfl)
        (by decide) (by decide) (by decide)
    have henv : envName.isPrefixOf
        (dotenvName
          ++ (os ++ (w1 ++ ('(' :: (w2 ++ ('"' :: (n ++ ('"' :: (w3 ++ (')' :: post)))))))))) = false :=
      distinct_heads_isPrefixOf_false dotenvName envName _ (prefix_of_append_eq rfl)
        (by decide) (by decide) (by decide)
    exact matchAt_eq_of_dotenv _ _ (tryName_none_of_not_isPrefixOf _ _ hstd)
      (tryName_none_of_not_isPrefixOf _ _ henv)
      (tryName_front dotenvName os w1 w2 w3 n post hos h1 h2 h3 hcl)

theorem findAllFuel_ne_of_front :
    ∀ (pre rest : Text) (fuel : Nat), (∃ p, matchAt rest = some p) → rest ≠ [] →
      (pre ++ rest).length ≤ fuel → findAllFuel fuel (pre ++ rest) ≠ [] := by
  intro pre
  induction pre with
  | nil =>
    intro rest fuel hm hne hlen
    rcases hm with ⟨p, hm⟩
    obtain ⟨n0, a⟩ := p
    rw [List.nil_append] at hlen ⊢
    cases rest with
    | nil => exact absurd rfl hne
    | cons c rrest =>
      cases fuel with
      | zero =>
        rw [List.length_cons] at hlen
        omega
      | succ f =>
        simp only [findAllFuel, hm]
        exact List.cons_ne_nil _ _
  | cons c pre' ih =>
    intro rest fuel hm hne hlen
    rw [List.cons_append] at hlen ⊢
    cases fuel with
    | zero =>
      rw [List.length_cons] at hlen
      omega
    | succ f =>
      cases hma : matchAt (c :: (pre' ++ rest)) with
      | some p =>
        obtain ⟨n0, a⟩ := p
        simp only [findAllFuel, hma]
        exact List.cons_ne_nil _ _
      | none =>
        simp only [findAllFuel, hma]
        apply ih rest f hm hne
        rw [List.length_cons] at hlen
        omega

theorem spanShape_findAll_ne (t n : Text) (h : SpanShape t n) : findAll t ≠ [] := by
  rcases h with ⟨pre, cname, os, w1, w2, w3, post, hcn, hos, h1, h2, h3, h4, ht⟩
  simp only [List.append_assoc, List.cons_append] at ht
  have hcne : cname ≠ [] := by
    rcases hcn with rfl | rfl | rfl <;> decide
  have hrne : cname
      ++ (os ++ (w1 ++ ('(' :: (w2 ++ ('"' :: (n ++ ('"' :: (w3 ++ (')' :: post))))))))) ≠ [] := by
    intro hc
    exact hcne (List.append_eq_nil.1 hc).1
  have hmm : ∃ p, matchAt (cname
      ++ (os ++ (w1 ++ ('(' :: (w2 ++ ('"' :: (n ++ ('"' :: (w3 ++ (')' :: post)))))))))) = some p :=
    ⟨(n, post), matchAt_front cname os w1 w2 w3 n post hcn hos h1 h2 h3 h4⟩
  rw [ht]
  unfold findAll
  exact findAllFuel_ne_of_front pre _ _ hmm hrne (le_refl _)

/-- C3 amended: the extractor yields a name only from a span containing, in
order, a call-name alternative, an optional _os suffix, whitespace, an
opening parenthesis, whitespace, a double-quote, a clean capture, a
double-quote, whitespace and a closing parenthesis; and whenever a span
contains such a decomposition the extractor yields at least one name.  The
original iff fails in one direction: because captures_iter returns
non-overlapping leftmost matches, a decomposition that overlaps an earlier
match may itself not be yielded (see the counterexample). -/
theorem c3_extractor_shape (t n : Text) :
    (n ∈ findAll t → SpanShape t n) ∧ (SpanShape t n → findAll t ≠ []) :=
  ⟨findAll_imp_spanShape t n, spanShape_findAll_ne t n⟩

/-- C3 counterexample: in env::var("env::var(") ") the name ") " has a full
decomposition (the second env::var, reusing the first match's closing quote
as its opening quote), yet the extractor yields only env::var( — the
leftmost match consumes the overlapping region, so the claimed iff is
false. -/
theorem c3_counterexample :
    SpanShape ("env::var(\"env::var(\") \")".toList) (") ".toList)
    ∧ ") ".toList ∉ findAll ("env::var(\"env::var(\") \")".toList) := by
  constructor
  · refine ⟨"env::var(\"".toList, envName, [], [], [], [], [],
      Or.inr (Or.inl rfl), Or.inl rfl, ?_, ?_, ?_, ?_, ?_⟩
    · intro c hc
      cases hc
    · intro c hc
      cases hc
    · intro c hc
      cases hc
    · unfold CleanCapture
      decide
    · decide
  · decide

/-- Witness for C3's amended statement at a concrete span. -/
theorem c3_witness : SpanShape ("env::var(\"A\")".toList) ("A".toList) :=
  (c3_extractor_shape ("env::var(\"A\")".toList) ("A".toList)).1 (by decide)

/-! ## C6: idempotence of generate on its own output -/

theorem length_dropWhile_le (p : Char → Bool) :
    ∀ t : Text, (t.dropWhile p).length ≤ t.length := by
  intro t
  induction t with
  | nil => exact Nat.le_refl 0
  | cons c rest ih =>
    rw [List.dropWhile_cons]
    by_cases hc : p c = true
    · rw [if_pos hc]
      exact Nat.le_succ_of_le ih
    · rw [if_neg hc]

theorem length_trimText_le (t : Text) : (trimText t).length ≤ t.length := by
  unfold trimText
  rw [List.length_reverse]
  calc ((t.dropWhile isWS).reverse.dropWhile isWS).length
      ≤ (t.dropWhile isWS).reverse.length := length_dropWhile_le isWS _
    _ = (t.dropWhile isWS).length := List.length_reverse _
    _ ≤ t.length := length_dropWhile_le isWS t

theorem trim_eq_self_head (t : Text) (h : trimText t = t) (c : Char) (rest : Text)
    (ht : t = c :: rest) : isWS c = false := by
  by_contra hc
  have hc' : isWS c = true := Bool.of_not_eq_false hc
  have h1 : (trimText t).length ≤ rest.length := by
    calc (trimText t).length
        ≤ (t.dropWhile isWS).length := by
          unfold trimText
          rw [List.length_reverse]
          calc ((t.dropWhile isWS).reverse.dropWhile isWS).length
              ≤ (t.dropWhile isWS).reverse.length := length_dropWhile_le isWS _
            _ = (t.dropWhile isWS).length := List.length_reverse _
      _ ≤ rest.length := by
          rw [ht, List.dropWhile_cons, if_pos hc']
          exact length_dropWhile_le isWS rest
  rw [h, ht] at h1
  simp at h1

theorem head_dropWhile_false (p : Char → Bool) :
    ∀ (t : Text) (c : Char) (rest : Text), t.dropWhile p = c :: rest → p c = false := by
  intro t
  induction t with
  | nil => intro c rest h; cases h
  | cons a t' ih =>
    intro c rest h
    rw [List.dropWhile_cons] at h
    by_cases ha : p a = true
    · rw [if_pos ha] at h
      exact ih c rest h
    · rw [if_neg ha] at h
      injection h with h1 _
      rw [← h1]
      exact Bool.eq_false_iff.2 ha

theorem trim_last_not_ws (t : Text) (c : Char) (h : (trimText t).getLast? = some c) :
    isWS c = false := by
  unfold trimText at h
  rw [← List.head?_reverse, List.reverse_reverse] at h
  cases hd : (t.dropWhile isWS).reverse.dropWhile isWS with
  | nil =>
    rw [hd] at h
    cases h
  | cons d rest =>
    rw [hd] at h
    injection h with h1
    rw [← h1]
    exact head_dropWhile_false isWS _ d rest hd

theorem trim_head_not_ws (t : Text) (c : Char) (h : (trimText t).head? = some c) :
    isWS c = false := by
  have hsuf : (t.dropWhile isWS).reverse.dropWhile isWS <:+ (t.dropWhile isWS).reverse :=
    List.dropWhile_suffix isWS
  rcases hsuf with ⟨v, hv⟩
  have hne : (t.dropWhile isWS).reverse.dropWhile isWS ≠ [] := by
    intro hc
    unfold trimText at h
    rw [hc] at h
    cases h
  have hu : t.dropWhile isWS
      = ((t.dropWhile isWS).reverse.dropWhile isWS).reverse ++ v.reverse := by
    have := congrArg List.reverse hv
    rw [List.reverse_append, List.reverse_reverse] at this
    exact this.symm
  have hXne : ((t.dropWhile isWS).reverse.dropWhile isWS).reverse ≠ [] := by
    intro hc
    exact hne (by simpa using congrArg List.reverse hc)
  have hh : (t.dropWhile isWS).head? = (trimText t).head? := by
    unfold trimText
    conv_lhs => rw [hu]
    rw [List.head?_append_of_ne_nil _ hXne]
  cases hd : t.dropWhile isWS with
  | nil =>
    rw [hd] at hh
    rw [← hh] at h
    cases h
  | cons d rest =>
    rw [hd] at hh
    rw [← hh] at h
    injection h with h1
    rw [← h1]
    exact head_dropWhile_false isWS t d rest hd

theorem trim_eq_self_of (t : Text)
    (hh : ∀ c rest, t = c :: rest → isWS c = false)
    (hl : ∀ c, t.getLast? = some c → isWS c = false) : trimText t = t := by
  cases t with
  | nil => rfl
  | cons c rest =>
    have hc : isWS c = false := hh c rest rfl
    unfold trimText
    rw [List.dropWhile_cons, if_neg (by rw [hc]; exact Bool.false_ne_true)]
    cases hrev : (c :: rest).reverse with
    | nil =>
      exfalso
      have := congrArg List.length hrev
      simp at this
    | cons d v =>
      have hd : (c :: rest).getLast? = some d := by
        rw [← List.head?_reverse, hrev]
        rfl
      have hdws : isWS d = false := hl d hd
      rw [List.dropWhile_cons, if_neg (by rw [hdws]; exact Bool.false_ne_true)]
      have h2 := congrArg List.reverse hrev
      rw [List.reverse_reverse] at h2
      exact h2.symm

theorem mem_trimText_sub (t : Text) (c : Char) (h : c ∈ trimText t) : c ∈ t := by
  unfold trimText at h
  rw [List.mem_reverse] at h
  have h1 : c ∈ (t.dropWhile isWS).reverse :=
    (List.dropWhile_suffix isWS).mem h
  rw [List.mem_reverse] at h1
  exact (List.dropWhile_suffix isWS).mem h1

theorem trimText_idem (t : Text) : trimText (trimText t) = trimText t := by
  apply trim_eq_self_of
  · intro c rest hc
    exact trim_head_not_ws t c (by rw [hc]; rfl)
  · intro c hc
    exact trim_last_not_ws t c hc

theorem trim_cons_head (c : Char) (t : Text) (hc : isWS c = false) :
    ∃ z, trimText (c :: t) = c :: z := by
  unfold trimText
  rw [List.dropWhile_cons, if_neg (by rw [hc]; exact Bool.false_ne_true)]
  rw [show (c :: t).reverse = t.reverse ++ [c] by simp]
  rw [List.dropWhile_append]
  by_cases he : (t.reverse.dropWhile isWS).isEmpty = true
  · rw [if_pos he]
    rw [show List.dropWhile isWS [c] = [c] by
      rw [List.dropWhile_cons, if_neg (by rw [hc]; exact Bool.false_ne_true)]]
    exact ⟨[], rfl⟩
  · rw [if_neg he]
    rw [List.reverse_append]
    exact ⟨(t.reverse.dropWhile isWS).reverse, by simp⟩

theorem linesOf_cons_ne (c : Char) (rest : Text) (h1 : c ≠ '\n')
    (h2 : ¬(c = '\r' ∧ rest.head? = some '\n')) :
    linesOf (c :: rest)
      = match linesOf rest with
        | [] => [[c]]
        | l :: ls => (c :: l) :: ls := by
  rw [linesOf.eq_def]
  split
  · rename_i heq
    cases heq
  · rename_i r' heq
    injection heq with ha hb
    exact absurd ⟨ha, by rw [hb]; rfl⟩ h2
  · rename_i r' heq
    injection heq with ha _
    exact absurd ha h1
  · rename_i c' r' hne1 hne2 heq
    injection heq with ha hb
    rw [ha, hb]

theorem linesOf_append_line (rest : Text) :
    ∀ l : Text, '\n' ∉ l → l.getLast? ≠ some '\r' →
      linesOf (l ++ '\n' :: rest) = l :: linesOf rest := by
  intro l
  induction l with
  | nil =>
    intro _ _
    rfl
  | cons c l' ih =>
    intro hnl hlast
    have hc : c ≠ '\n' := fun hc => hnl (hc ▸ List.mem_cons_self c l')
    have hcr : ¬(c = '\r' ∧ (l' ++ '\n' :: rest).head? = some '\n') := by
      rintro ⟨rfl, hh⟩
      cases l' with
      | nil =>
        exact hlast rfl
      | cons d l'' =>
        rw [List.cons_append, List.head?_cons] at hh
        injection hh with hd
        exact hnl (by rw [hd]; exact List.mem_cons_of_mem _ (List.mem_cons_self _ _))
    have hnl' : '\n' ∉ l' := fun hm => hnl (List.mem_cons_of_mem c hm)
    have hlast' : l'.getLast? ≠ some '\r' := by
      cases l' with
      | nil => intro hc'; cases hc'
      | cons d l'' =>
        intro hc'
        apply hlast
        rw [List.getLast?_cons_cons]
        exact hc'
    rw [List.cons_append, linesOf_cons_ne c (l' ++ '\n' :: rest) hc hcr, ih hnl' hlast']

theorem linesOf_joinNl :
    ∀ ls : List Text, (∀ l ∈ ls, '\n' ∉ l ∧ l.getLast? ≠ some '\r') →
      linesOf (joinNl ls) = ls := by
  intro ls
  induction ls with
  | nil => intro _; rfl
  | cons l ls ih =>
    intro h
    have hl := h l (List.mem_cons_self l ls)
    have hls : ∀ l' ∈ ls, '\n' ∉ l' ∧ l'.getLast? ≠ some '\r' :=
      fun l' hl' => h l' (List.mem_cons_of_mem l hl')
    have hjoin : joinNl (l :: ls) = l ++ '\n' :: joinNl ls := by
      unfold joinNl
      rw [List.map_cons, List.flatten_cons]
      simp
    rw [hjoin, linesOf_append_line (joinNl ls) l hl.1 hl.2, ih hls]

theorem splitEq_some :
    ∀ (t a b : Text), splitEq t = some (a, b) → t = a ++ '=' :: b ∧ '=' ∉ a := by
  intro t
  induction t with
  | nil => intro a b h; cases h
  | cons c rest ih =>
    intro a b h
    unfold splitEq at h
    by_cases hc : c = '='
    · rw [if_pos hc] at h
      injection h with h'
      injection h' with h1 h2
      rw [← h1, ← h2, hc]
      exact ⟨rfl, List.not_mem_nil '='⟩
    · rw [if_neg hc] at h
      cases hsp : splitEq rest with
      | none =>
        rw [hsp] at h
        cases h
      | some p =>
        obtain ⟨a0, b0⟩ := p
        rw [hsp] at h
        have h' : some ((c :: a0, b0) : Text × Text) = some (a, b) := h
        injection h' with h''
        injection h'' with h1 h2
        rcases ih a0 b0 hsp with ⟨hshape, hnot⟩
        rw [← h1, ← h2]
        constructor
        · rw [hshape]
          rfl
        · intro hm
          rcases List.mem_cons.1 hm with he | hm'
          · exact hc he.symm
          · exact hnot hm'

theorem splitEq_append :
    ∀ (k v : Text), '=' ∉ k → splitEq (k ++ '=' :: v) = some (k, v) := by
  intro k
  induction k with
  | nil =>
    intro v _
    show splitEq ('=' :: v) = some ([], v)
    unfold splitEq
    rw [if_pos rfl]
  | cons c k' ih =>
    intro v hne
    have hc : c ≠ '=' := fun hc => hne (hc ▸ List.mem_cons_self c k')
    have hne' : '=' ∉ k' := fun hm => hne (List.mem_cons_of_mem c hm)
    show splitEq (c :: (k' ++ '=' :: v)) = some (c :: k', v)
    unfold splitEq
    rw [if_neg hc, ih v hne']

theorem upsert_fresh (k v : Text) :
    ∀ m : List (Text × Text), containsKey k m = false → upsert k v m = m ++ [(k, v)] := by
  intro m
  induction m with
  | nil => intro _; rfl
  | cons p rest ih =>
    obtain ⟨k', v'⟩ := p
    intro h
    unfold containsKey lookupKey at h
    by_cases hk : k' = k
    · rw [if_pos hk] at h
      cases h
    · rw [if_neg hk] at h
      show (if k' = k then (k, v) :: rest else (k', v') :: upsert k v rest)
        = (k', v') :: rest ++ [(k, v)]
      rw [if_neg hk, ih h]
      rfl

theorem containsKey_iff_mem (k : Text) (m : List (Text × Text)) :
    containsKey k m = true ↔ k ∈ m.map Prod.fst := by
  unfold containsKey
  cases h : lookupKey k m with
  | none =>
    rw [lookupKey_none_iff] at h
    simp [h]
  | some v =>
    have hm : k ∈ m.map Prod.fst := by
      by_contra hc
      rw [← lookupKey_none_iff] at hc
      rw [h] at hc
      cases hc
    simp [hm]

theorem renderEntry_eq (k v : Text) : renderEntry (k, v) = k ++ '=' :: v := by
  unfold renderEntry
  by_cases hv : v.isEmpty
  · rw [if_pos hv, List.isEmpty_iff.1 hv]
  · rw [if_neg hv]

theorem render_line_trim (k v : Text) (hk : trimText k = k) (hv : trimText v = v) :
    trimText (k ++ '=' :: v) = k ++ '=' :: v := by
  apply trim_eq_self_of
  · intro c rest hc
    cases k with
    | nil =>
      rw [List.nil_append] at hc
      injection hc with h1 _
      rw [← h1]
      rfl
    | cons c0 k' =>
      rw [List.cons_append] at hc
      injection hc with h1 _
      rw [← h1]
      exact trim_eq_self_head (c0 :: k') hk c0 k' rfl
  · intro c hc
    cases v with
    | nil =>
      rw [List.getLast?_concat] at hc
      injection hc with h1
      rw [← h1]
      rfl
    | cons d v' =>
      rw [List.getLast?_append_of_ne_nil _ (List.cons_ne_nil '=' (d :: v')),
        List.getLast?_cons_cons] at hc
      apply trim_last_not_ws (d :: v') c
      rw [hv]
      exact hc

theorem render_line_head (k v : Text) (hk : k.head? ≠ some '#') :
    (k ++ '=' :: v).head? ≠ some '#' := by
  cases k with
  | nil =>
    rw [List.nil_append, List.head?_cons]
    intro hc
    injection hc with h1
    cases h1
  | cons c k' =>
    rw [List.cons_append, List.head?_cons]
    exact hk

theorem render_line_ne_nil (k v : Text) : (k ++ '=' :: v).isEmpty = false := by
  cases k with
  | nil => rfl
  | cons c k' => rfl

theorem parseLine_render (m : List (Text × Text)) (k v : Text) (hw : WFPair (k, v)) :
    parseLine m (renderEntry (k, v)) = upsert k v m := by
  obtain ⟨⟨hk1, hk2, hk3, hk4⟩, hv1, hv2⟩ := hw
  rw [renderEntry_eq]
  have htr : trimText (k ++ '=' :: v) = k ++ '=' :: v := render_line_trim k v hk1 hv1
  unfold parseLine
  by_cases hskip : (trimText (k ++ '=' :: v)).isEmpty
      || (trimText (k ++ '=' :: v)).head? = some '#'
  · exfalso
    rw [htr] at hskip
    rcases Bool.or_eq_true_iff.1 hskip with h1 | h1
    · rw [render_line_ne_nil k v] at h1
      cases h1
    · exact render_line_head k v hk4 (of_decide_eq_true h1)
  · simp only [hskip, Bool.false_eq_true, if_false]
    rw [htr, splitEq_append k v hk3]
    show upsert (trimText k) (trimText v) m = upsert k v m
    rw [hk1, hv1]

theorem parse_fold_render :
    ∀ (pairs m : List (Text × Text)), (∀ p ∈ pairs, WFPair p) →
      ((m ++ pairs).map Prod.fst).Nodup →
      (pairs.map renderEntry).foldl parseLine m = m ++ pairs := by
  intro pairs
  induction pairs with
  | nil =>
    intro m _ _
    simp
  | cons p rest ih =>
    obtain ⟨k, v⟩ := p
    intro m hwf hnd
    have hwfp : WFPair (k, v) := hwf (k, v) (List.mem_cons_self _ _)
    have hkfresh : containsKey k m = false := by
      rw [Bool.eq_false_iff]
      intro hc
      have hmem := (containsKey_iff_mem k m).1 hc
      rw [List.map_append, List.nodup_append] at hnd
      exact hnd.2.2 hmem (by
        rw [List.map_cons]
        exact List.mem_cons_self _ _)
    rw [List.map_cons, List.foldl_cons, parseLine_render m k v hwfp, upsert_fresh k v m hkfresh]
    have hre : (m ++ [(k, v)]) ++ rest = m ++ (k, v) :: rest := by
      rw [List.append_assoc]
      rfl
    rw [ih (m ++ [(k, v)]) (fun q hq => hwf q (List.mem_cons_of_mem _ hq)) (by rw [hre]; exact hnd),
      hre]

theorem parseLine_skip_comment (m : List (Text × Text)) (line : Text)
    (h : (trimText line).head? = some '#') : parseLine m line = m := by
  unfold parseLine
  by_cases hskip : (trimText line).isEmpty || (trimText line).head? = some '#'
  · simp only [hskip, if_true]
  · exfalso
    apply hskip
    rw [Bool.or_eq_true_iff]
    right
    exact decide_eq_true h

theorem parseLine_blank (m : List (Text × Text)) : parseLine m [] = m := rfl

theorem linesOf_no_nl : ∀ (t : Text), ∀ l ∈ linesOf t, '\n' ∉ l := by
  intro t
  induction t using linesOf.induct with
  | case1 =>
    intro l hl
    cases hl
  | case2 rest ih =>
    intro l hl
    rcases List.mem_cons.1 hl with rfl | hl'
    · exact List.not_mem_nil _
    · exact ih l hl'
  | case3 rest ih =>
    intro l hl
    rcases List.mem_cons.1 hl with rfl | hl'
    · exact List.not_mem_nil _
    · exact ih l hl'
  | case4 c rest h1 h2 heq ih =>
    intro l hl
    have hcr : ¬(c = '\r' ∧ rest.head? = some '\n') := by
      rintro ⟨rfl, hh⟩
      cases rest with
      | nil => cases hh
      | cons d rest' =>
        rw [List.head?_cons] at hh
        injection hh with hd
        exact h1 rest' rfl (by rw [hd])
    rw [linesOf_cons_ne c rest h2 hcr, heq] at hl
    have hl' : l ∈ [[c]] := hl
    rcases List.mem_singleton.1 hl' with rfl
    intro hm
    rcases List.mem_singleton.1 hm with rfl
    exact h2 rfl
  | case5 c rest h1 h2 l0 ls0 heq ih =>
    intro l hl
    have hcr : ¬(c = '\r' ∧ rest.head? = some '\n') := by
      rintro ⟨rfl, hh⟩
      cases rest with
      | nil => cases hh
      | cons d rest' =>
        rw [List.head?_cons] at hh
        injection hh with hd
        exact h1 rest' rfl (by rw [hd])
    rw [linesOf_cons_ne c rest h2 hcr, heq] at hl
    have hl' : l ∈ (c :: l0) :: ls0 := hl
    rcases List.mem_cons.1 hl' with rfl | hl''
    · intro hm
      rcases List.mem_cons.1 hm with hm1 | hm2
      · exact h2 hm1.symm
      · exact ih l0 (by rw [heq]; exact List.mem_cons_self _ _) hm2
    · exact ih l (by rw [heq]; exact List.mem_cons_of_mem _ hl'')

theorem mem_upsert (k v : Text) :
    ∀ (m : List (Text × Text)) (p : Text × Text), p ∈ upsert k v m → p = (k, v) ∨ p ∈ m := by
  intro m
  induction m with
  | nil =>
    intro p hp
    rcases List.mem_singleton.1 hp with rfl
    exact Or.inl rfl
  | cons q rest ih =>
    obtain ⟨k', v'⟩ := q
    intro p hp
    by_cases hk : k' = k
    · rw [show upsert k v ((k', v') :: rest)
          = (if k' = k then (k, v) :: rest else (k', v') :: upsert k v rest) from rfl,
        if_pos hk] at hp
      rcases List.mem_cons.1 hp with rfl | hp'
      · exact Or.inl rfl
      · exact Or.inr (List.mem_cons_of_mem _ hp')
    · rw [show upsert k v ((k', v') :: rest)
          = (if k' = k then (k, v) :: rest else (k', v') :: upsert k v rest) from rfl,
        if_neg hk] at hp
      rcases List.mem_cons.1 hp with rfl | hp'
      · exact Or.inr (List.mem_cons_self _ _)
      · rcases ih p hp' with h | h
        · exact Or.inl h
        · exact Or.inr (List.mem_cons_of_mem _ h)

theorem parseLine_WF (m : List (Text × Text)) (line : Text) (hnl : '\n' ∉ line)
    (hm : ∀ p ∈ m, WFPair p) : ∀ p ∈ parseLine m line, WFPair p := by
  unfold parseLine
  by_cases hskip : (trimText line).isEmpty || (trimText line).head? = some '#'
  · simp only [hskip, if_true]
    exact hm
  · simp only [hskip, Bool.false_eq_true, if_false]
    cases hsp : splitEq (trimText line) with
    | none => exact hm
    | some q =>
      obtain ⟨a, b⟩ := q
      intro p hp
      rcases mem_upsert (trimText a) (trimText b) m p hp with rfl | hp'
      · rcases splitEq_some (trimText line) a b hsp with ⟨hshape, heqnot⟩
        have hsubl : ∀ c, c ∈ a ∨ c ∈ b → c ∈ line := by
          intro c hc
          apply mem_trimText_sub line c
          rw [hshape]
          rcases hc with hc | hc
          · exact List.mem_append.2 (Or.inl hc)
          · exact List.mem_append.2 (Or.inr (List.mem_cons_of_mem _ hc))
        have hheadline : (trimText line).head? ≠ some '#' := by
          intro hc
          apply hskip
          rw [Bool.or_eq_true_iff]
          exact Or.inr (decide_eq_true hc)
        refine ⟨⟨trimText_idem a, ?_, ?_, ?_⟩, trimText_idem b, ?_⟩
        · intro hc
          exact hnl (hsubl '\n' (Or.inl (mem_trimText_sub a '\n' hc)))
        · intro hc
          exact heqnot (mem_trimText_sub a '=' hc)
        · cases hta : trimText a with
          | nil =>
            intro hc
            cases hc
          | cons c z =>
            intro hc
            injection hc with hc'
            cases a with
            | nil => cases hta
            | cons a0 a'' =>
              have hheq : (trimText line).head? = some a0 := by
                rw [hshape, List.cons_append, List.head?_cons]
              have ha0 : isWS a0 = false := by
                have hidem : trimText (trimText line) = trimText line := trimText_idem line
                cases hl0 : trimText line with
                | nil =>
                  rw [hl0] at hheq
                  cases hheq
                | cons x xs =>
                  rw [hl0] at hheq
                  injection hheq with hx
                  rw [← hx]
                  exact trim_eq_self_head (trimText line) hidem x xs hl0
              rcases trim_cons_head a0 a'' ha0 with ⟨z', hz'⟩
              rw [hta] at hz'
              injection hz' with hz1 _
              apply hheadline
              rw [hshape, List.cons_append, List.head?_cons, ← hz1, hc']
        · intro hc
          exact hnl (hsubl '\n' (Or.inr (mem_trimText_sub b '\n' hc)))
      · exact hm p hp'

theorem parse_fold_WF :
    ∀ (lines : List Text) (m : List (Text × Text)), (∀ l ∈ lines, '\n' ∉ l) →
      (∀ p ∈ m, WFPair p) → ∀ p ∈ lines.foldl parseLine m, WFPair p := by
  intro lines
  induction lines with
  | nil =>
    intro m _ hm
    exact hm
  | cons l ls ih =>
    intro m hnl hm
    rw [List.foldl_cons]
    exact ih (parseLine m l)
      (fun l' hl' => hnl l' (List.mem_cons_of_mem _ hl'))
      (parseLine_WF m l (hnl l (List.mem_cons_self _ _)) hm)

theorem parseEnv_WF (content : Text) : ∀ p ∈ parseEnv content, WFPair p :=
  parse_fold_WF (linesOf content) [] (linesOf_no_nl content) (by intro p hp; cases hp)

theorem mem_orInsert (m : List (Text × Text)) (n : Text) (p : Text × Text)
    (hp : p ∈ orInsert m n) : p ∈ m ∨ p = (n, []) := by
  unfold orInsert at hp
  by_cases hc : containsKey n m
  · rw [if_pos hc] at hp
    exact Or.inl hp
  · rw [if_neg hc] at hp
    rcases List.mem_append.1 hp with h | h
    · exact Or.inl h
    · exact Or.inr (List.mem_singleton.1 h)

theorem mergeVars_WF :
    ∀ (vars : List Text) (m : List (Text × Text)), (∀ n ∈ vars, WFName n) →
      (∀ p ∈ m, WFPair p) → ∀ p ∈ mergeVars vars m, WFPair p := by
  intro vars
  induction vars with
  | nil =>
    intro m _ hm
    exact hm
  | cons n vars ih =>
    intro m hv hm
    apply ih (orInsert m n) (fun n' hn' => hv n' (List.mem_cons_of_mem _ hn'))
    intro p hp
    rcases mem_orInsert m n p hp with h | rfl
    · exact hm p h
    · exact ⟨hv n (List.mem_cons_self _ _), rfl, List.not_mem_nil _⟩

theorem keys_mono_orInsert (m : List (Text × Text)) (n a : Text)
    (ha : a ∈ m.map Prod.fst) : a ∈ (orInsert m n).map Prod.fst := by
  unfold orInsert
  by_cases hc : containsKey n m
  · rw [if_pos hc]
    exact ha
  · rw [if_neg hc, List.map_append]
    exact List.mem_append.2 (Or.inl ha)

theorem keys_mono_mergeVars :
    ∀ (vars : List Text) (m : List (Text × Text)) (a : Text), a ∈ m.map Prod.fst →
      a ∈ (mergeVars vars m).map Prod.fst := by
  intro vars
  induction vars with
  | nil =>
    intro m a ha
    exact ha
  | cons n vars ih =>
    intro m a ha
    exact ih (orInsert m n) a (keys_mono_orInsert m n a ha)

theorem mem_keys_orInsert_self (m : List (Text × Text)) (n : Text) :
    n ∈ (orInsert m n).map Prod.fst := by
  unfold orInsert
  by_cases hc : containsKey n m
  · rw [if_pos hc]
    exact (containsKey_iff_mem n m).1 hc
  · rw [if_neg hc, List.map_append]
    exact List.mem_append.2 (Or.inr (by simp))

theorem mem_keys_mergeVars :
    ∀ (vars : List Text) (m : List (Text × Text)) (n : Text), n ∈ vars →
      n ∈ (mergeVars vars m).map Prod.fst := by
  intro vars
  induction vars with
  | nil =>
    intro m n hn
    cases hn
  | cons n0 vars ih =>
    intro m n hn
    rcases List.mem_cons.1 hn with rfl | hn'
    · exact keys_mono_mergeVars vars (orInsert m n) n (mem_keys_orInsert_self m n)
    · exact ih (orInsert m n0) n hn'

theorem mergeVars_id :
    ∀ (vars : List Text) (m : List (Text × Text)),
      (∀ n ∈ vars, containsKey n m = true) → mergeVars vars m = m := by
  intro vars
  induction vars with
  | nil =>
    intro m _
    rfl
  | cons n vars ih =>
    intro m hc
    have h1 : orInsert m n = m := by
      unfold orInsert
      rw [if_pos (hc n (List.mem_cons_self _ _))]
    show mergeVars vars (orInsert m n) = m
    rw [h1]
    exact ih m (fun n' hn' => hc n' (List.mem_cons_of_mem _ hn'))

theorem sortPairs_WF (l : List (Text × Text)) (h : ∀ p ∈ l, WFPair p) :
    ∀ p ∈ sortPairs l, WFPair p := by
  intro p hp
  exact h p ((List.mem_insertionSort _).1 hp)

theorem renderEntry_line_ok (p : Text × Text) (hp : WFPair p) :
    '\n' ∉ renderEntry p ∧ (renderEntry p).getLast? ≠ some '\r' := by
  obtain ⟨k, v⟩ := p
  obtain ⟨⟨hk1, hk2, _, _⟩, hv1, hv2⟩ := hp
  rw [renderEntry_eq]
  constructor
  · intro hm
    rcases List.mem_append.1 hm with h | h
    · exact hk2 h
    · rcases List.mem_cons.1 h with h1 | h1
      · cases h1
      · exact hv2 h1
  · intro hc
    have htr : trimText (k ++ '=' :: v) = k ++ '=' :: v := render_line_trim k v hk1 hv1
    have := trim_last_not_ws (k ++ '=' :: v) '\r' (by rw [htr]; exact hc)
    cases this

/-- C6 amended: generate is idempotent on its own output provided every
discovered name is round-trip stable — equal to its own trim, free of
newline and equals-sign characters, and not starting with the # comment
marker.  (Names captured by the extractor can violate this — e.g. carry
surrounding spaces or an inner equals sign — and then the second run
re-adds them as new keys, so the unrestricted claim is false; see the
counterexample.) -/
theorem c6_generate_idempotent (vars : List Text) (prior : Text)
    (hwf : ∀ n ∈ vars, WFName n) :
    genFromContent vars (genFromContent vars prior) = genFromContent vars prior := by
  have hWFm1 : ∀ p ∈ mergeVars vars (parseEnv prior), WFPair p :=
    mergeVars_WF vars (parseEnv prior) hwf (parseEnv_WF prior)
  have hndm1 : ((mergeVars vars (parseEnv prior)).map Prod.fst).Nodup :=
    keys_nodup_mergeVars vars (parseEnv prior) (keys_nodup_parseEnv prior)
  have hnds1 : ((sortPairs (mergeVars vars (parseEnv prior))).map Prod.fst).Nodup :=
    keys_nodup_sortPairs _ hndm1
  have hWFs1 : ∀ p ∈ sortPairs (mergeVars vars (parseEnv prior)), WFPair p :=
    sortPairs_WF _ hWFm1
  have hlinesOK : ∀ l ∈ (header1 :: header2 :: [] ::
      (sortPairs (mergeVars vars (parseEnv prior))).map renderEntry),
      '\n' ∉ l ∧ l.getLast? ≠ some '\r' := by
    intro l hl
    rcases List.mem_cons.1 hl with rfl | hl
    · exact ⟨by decide, by decide⟩
    rcases List.mem_cons.1 hl with rfl | hl
    · exact ⟨by decide, by decide⟩
    rcases List.mem_cons.1 hl with rfl | hl
    · exact ⟨List.not_mem_nil _, by intro hc; cases hc⟩
    rcases List.mem_map.1 hl with ⟨p, hp, rfl⟩
    exact renderEntry_line_ok p (hWFs1 p hp)
  have hlines : linesOf (genFromContent vars prior)
      = header1 :: header2 :: [] ::
        (sortPairs (mergeVars vars (parseEnv prior))).map renderEntry :=
    linesOf_joinNl _ hlinesOK
  have hparse : parseEnv (genFromContent vars prior)
      = sortPairs (mergeVars vars (parseEnv prior)) := by
    unfold parseEnv
    rw [hlines, List.foldl_cons, List.foldl_cons, List.foldl_cons,
      parseLine_skip_comment [] header1 (by decide),
      parseLine_skip_comment [] header2 (by decide), parseLine_blank]
    have := parse_fold_render (sortPairs (mergeVars vars (parseEnv prior))) [] hWFs1
      (by rw [List.nil_append]; exact hnds1)
    rw [List.nil_append] at this
    exact this
  have hkeys : ∀ n ∈ vars,
      containsKey n (sortPairs (mergeVars vars (parseEnv prior))) = true := by
    intro n hn
    rw [containsKey_iff_mem]
    have h1 : n ∈ (mergeVars vars (parseEnv prior)).map Prod.fst :=
      mem_keys_mergeVars vars (parseEnv prior) n hn
    have hperm : (sortPairs (mergeVars vars (parseEnv prior))).Perm
        (mergeVars vars (parseEnv prior)) := List.perm_insertionSort _ _
    exact ((hperm.map Prod.fst).mem_iff).2 h1
  have hmv : mergeVars vars (sortPairs (mergeVars vars (parseEnv prior)))
      = sortPairs (mergeVars vars (parseEnv prior)) := mergeVars_id vars _ hkeys
  have hsp : sortPairs (sortPairs (mergeVars vars (parseEnv prior)))
      = sortPairs (mergeVars vars (parseEnv prior)) :=
    List.Sorted.insertionSort_eq (sortPairs_sorted (mergeVars vars (parseEnv prior)))
  show joinNl (generateLines vars (parseEnv (genFromContent vars prior)))
      = genFromContent vars prior
  rw [hparse]
  show joinNl (header1 :: header2 :: [] ::
      (sortPairs (mergeVars vars (sortPairs (mergeVars vars (parseEnv prior))))).map
        renderEntry) = genFromContent vars prior
  rw [hmv, hsp]
  rfl

/-- C6 counterexample: with the discovered name "A " (a trailing space is a
legal capture character) the first run writes the line A(space)=, the
re-parse trims the key to A, and the second run re-adds "A " as a new key,
so the second output is not byte-identical to the first. -/
theorem c6_counterexample :
    genFromContent ["A ".toList] (genFromContent ["A ".toList] [])
      ≠ genFromContent ["A ".toList] [] := by
  decide

/-- Witness for C6's amended statement at a concrete well-formed input. -/
theorem c6_witness :
    genFromContent ["DB".toList] (genFromContent ["DB".toList] "X=1\n".toList)
      = genFromContent ["DB".toList] "X=1\n".toList :=
  c6_generate_idempotent ["DB".toList] "X=1\n".toList (by
    intro n hn
    rcases List.mem_singleton.1 hn with rfl
    exact ⟨by decide, by decide, by decide, by decide⟩)

end AutoEnv
